import Mathlib

set_option maxRecDepth 8000

/- Verification development for the minesweeper-engine repository.

   The TypeScript sources are shallowly embedded as follows: the mutable
   grid of SimpleCell objects becomes a total function from positions to
   cell values; in-place mutation of a cell object becomes a functional
   update of the grid at that cell's position; methods that in JS would
   dereference an out-of-bounds index (undefined) are Option-valued; the
   injected pseudo-random source (used only by placeMines, which draws
   a row/col pair per iteration) is modelled as a stream of drawn
   positions, and the rejection-sampling while loop returns none when the
   stream is exhausted before the requested count is reached. -/

namespace Minesweeper

/- Position: integer (row, column) pair, as model/types.ts Position. -/
structure Position where
  row : Int
  col : Int
deriving DecidableEq, Repr

/- Per-cell stored state, as the mutable fields of SimpleCell
   (simple-cell.ts). The position is the grid index, kept outside. -/
structure Cell where
  isMine : Bool
  isRevealed : Bool
  isFlagged : Bool
  adjacentMines : Int
deriving DecidableEq, Repr

def blankCell : Cell :=
  { isMine := false, isRevealed := false, isFlagged := false, adjacentMines := 0 }

/- Derived predicates of SimpleCell (never stored, recomputed). -/
def Cell.isEmpty (c : Cell) : Bool := !c.isMine && c.adjacentMines == 0

def Cell.isExploded (c : Cell) : Bool := c.isMine && c.isRevealed

def Cell.isMissed (c : Cell) : Bool := c.isFlagged && !c.isMine

def Cell.notFoundMine (c : Cell) : Bool := c.isMine && !c.isFlagged

def Cell.isUntouched (c : Cell) : Bool := !c.isRevealed && !c.isFlagged

/- CellData as produced by SimpleCell.getData(): the position plus the
   stored fields (the derived booleans are functions of these). -/
structure CellData where
  position : Position
  data : Cell
deriving DecidableEq, Repr

structure GameParams where
  rows : Int
  cols : Int
  mines : Int
deriving DecidableEq, Repr

/- Field: the BaseField/SquareField state (base-field.ts, square-field.ts):
   params, the grid (as a total function on positions), the isMined flag,
   and the random source (as the stream of future placeMines draws). -/
structure Field where
  params : GameParams
  cells : Position → Cell
  isMined : Bool
  rng : List Position

/- The eight (dx, dy) offsets of SquareField.getSiblings, in the order of
   its nested loops: dx is the column offset (outer), dy the row offset. -/
def siblingOffsets : List (Int × Int) :=
  [(-1, -1), (-1, 0), (-1, 1), (0, -1), (0, 1), (1, -1), (1, 0), (1, 1)]

/- SquareField.isInBoundary. -/
def Field.isInBoundary (f : Field) (p : Position) : Bool :=
  decide (0 ≤ p.col) && decide (0 ≤ p.row) &&
    decide (p.col < f.params.cols) && decide (p.row < f.params.rows)

/- SquareField.getSiblings: the up-to-8 in-bounds neighbor cells, here
   represented by their positions (the cells are the grid slots). -/
def Field.getSiblings (f : Field) (p : Position) : List Position :=
  (siblingOffsets.map fun d => Position.mk (p.row + d.2) (p.col + d.1)).filter
    fun q => f.isInBoundary q

/- SquareField.getCell: grid[row][col]; none models the undefined value a
   JS out-of-bounds index yields (any later field access would throw). -/
def Field.getCell (f : Field) (p : Position) : Option Cell :=
  if f.isInBoundary p then some (f.cells p) else none

def Field.getCellData (f : Field) (p : Position) : Option CellData :=
  (f.getCell p).map fun c => CellData.mk p c

/- Functional update of one grid slot (mutating one SimpleCell). -/
def Field.setCell (f : Field) (p : Position) (c : Cell) : Field :=
  { f with cells := fun q => if q = p then c else f.cells q }

/- SquareField.mineCell: set the mine flag, then increment adjacentMines
   on every sibling. -/
def Field.mineCell (f : Field) (p : Position) : Field :=
  let f1 := f.setCell p { f.cells p with isMine := true }
  (f1.getSiblings p).foldl
    (fun g s => g.setCell s { g.cells s with adjacentMines := (g.cells s).adjacentMines + 1 })
    f1

/- SquareField.unMineCell. -/
def Field.unMineCell (f : Field) (p : Position) : Field :=
  let f1 := f.setCell p { f.cells p with isMine := false }
  (f1.getSiblings p).foldl
    (fun g s => g.setCell s { g.cells s with adjacentMines := (g.cells s).adjacentMines - 1 })
    f1

/- SquareField.relocateMine. -/
def Field.relocateMine (f : Field) (fromPos toPos : Position) : Field :=
  (f.unMineCell fromPos).mineCell toPos

/- The rejection-sampling loop of SquareField.placeMines: one draw is
   consumed per iteration; a draw already in the avoid set is redrawn;
   otherwise the drawn cell is mined and the placed count incremented.
   none models running out of random draws before the count is reached. -/
def placeMinesGo (mines : Int) : Field → List Position → Int → List Position → Option Field
  | f, _, count, [] => if count < mines then none else some f
  | f, avoid, count, d :: rest =>
    if count < mines then
      if d ∈ avoid then placeMinesGo mines f avoid count rest
      else placeMinesGo mines (f.mineCell d) (d :: avoid) (count + 1) rest
    else some f

/- SquareField.placeMines: a no-op if mines were already placed;
   otherwise sets isMined and runs the sampling loop. -/
def Field.placeMines (f : Field) : Option Field :=
  if f.isMined then some f
  else placeMinesGo f.params.mines { f with isMined := true } [] 0 f.rng

/- The integers 0, 1, ..., n - 1 (empty for nonpositive n). -/
def intRange (n : Int) : List Int :=
  List.map (fun k : Nat => (k : Int)) (List.range n.toNat)

/- Row-major list of all grid positions, the order of grid.flat(). -/
def Field.allPositions (f : Field) : List Position :=
  (intRange f.params.rows).flatMap fun r =>
    (intRange f.params.cols).map fun c => Position.mk r c

/- grid.flat().find(cell => !cell.isMine) from GameEngine.revealCell,
   returning the found cell's position. -/
def Field.findUnmined (f : Field) : Option Position :=
  f.allPositions.find? fun p => !(f.cells p).isMine

/- SquareField.cloneSelf: builds a new SquareField over copies of the
   cells; value semantics make the copy the identity, except that the
   BaseField constructor recomputes isMined as "some cell is mined". -/
def Field.cloneSelf (f : Field) : Field :=
  { f with isMined := f.allPositions.any fun p => (f.cells p).isMine }

/- The while loop of SquareField.getAreaToReveal, with an explicit fuel
   (the loop terminates because each iteration either drops a visited
   queue entry or marks a new cell visited; bfsFuel below is enough,
   which theorem revealBfs_spec makes precise). -/
def Field.revealBfs (f : Field) :
    Nat → List Position → (Position → Bool) → List Position → List Position
  | 0, _, _, res => res.reverse
  | _ + 1, [], _, res => res.reverse
  | fuel + 1, p :: rest, visited, res =>
    if visited p then f.revealBfs fuel rest visited res
    else
      let nextQueue := if (f.cells p).isEmpty then rest ++ f.getSiblings p else rest
      f.revealBfs fuel nextQueue (fun q => if q = p then true else visited q) (p :: res)

def Field.bfsFuel (f : Field) : Nat :=
  9 * (f.params.rows.toNat * f.params.cols.toNat) + 1

/- Body of SquareField.getAreaToReveal once the target cell has been
   read: a non-empty or mined target yields the singleton area, otherwise
   the breadth-first traversal runs from the target. -/
def Field.areaOf (f : Field) (p : Position) : List Position :=
  let target := f.cells p
  if !target.isEmpty || target.isMine then [p]
  else f.revealBfs f.bfsFuel [p] (fun _ => false) []

/- SquareField.getAreaToReveal: reading the target faults out of bounds. -/
def Field.getAreaToReveal (f : Field) (p : Position) : Option (List Position) :=
  (f.getCell p).map fun _ => f.areaOf p

/- FieldState as built by BaseField.getState: the flattened cell data in
   row-major order plus the categorized lists (the reduce pushes matching
   cells in traversal order, i.e. each list is a filter of the data). -/
structure FieldState where
  field : List CellData
  minedCells : List CellData
  explodedCells : List CellData
  flaggedCells : List CellData
  notFoundMines : List CellData
  errorFlags : List CellData
  revealedCells : List CellData
deriving DecidableEq, Repr

def Field.getState (f : Field) : FieldState :=
  let data := f.allPositions.map fun p => CellData.mk p (f.cells p)
  { field := data
    minedCells := data.filter fun c => c.data.isMine
    explodedCells := data.filter fun c => c.data.isExploded
    flaggedCells := data.filter fun c => c.data.isFlagged
    notFoundMines := data.filter fun c => c.data.notFoundMine
    errorFlags := data.filter fun c => c.data.isMissed
    revealedCells := data.filter fun c => c.data.isRevealed }

/- Restoring a field from a data grid (SquareField.createGrid with data):
   the BaseField constructor then computes isMined from the cells. -/
def fieldOfCells (params : GameParams) (rng : List Position) (g : Position → Cell) : Field :=
  let f0 : Field := { params := params, cells := g, isMined := false, rng := rng }
  { f0 with isMined := f0.allPositions.any fun p => (f0.cells p).isMine }

def blankField (params : GameParams) (rng : List Position) : Field :=
  fieldOfCells params rng fun _ => blankCell

/- FieldFactory.create: builds the square field and calls placeMines. -/
def factoryCreate (params : GameParams) (rng : List Position) (g : Position → Cell) :
    Option Field :=
  (fieldOfCells params rng g).placeMines

inductive GameStatus where
  | idle
  | playing
  | won
  | lost
deriving DecidableEq, Repr

/- GameEngine state: committed field, status, flags-remaining counter. -/
structure Engine where
  params : GameParams
  field : Field
  status : GameStatus
  flagsRemaining : Int

structure GameSnapshot where
  state : FieldState
  status : GameStatus
deriving DecidableEq, Repr

structure ActionChanges where
  target : CellData
  handledCells : List CellData
  flaggedCells : List CellData
  unflaggedCells : List CellData
  revealedCells : List CellData
  explodedCells : List CellData
deriving DecidableEq, Repr

/- ActionResult: the preview data plus the values the apply closure
   captured (it assigns exactly these to field / status / flagsRemaining;
   toggleFlag's closure leaves status alone, modelled by applyStatus
   being the engine's current status there). -/
structure ActionResult where
  actionSnapshot : GameSnapshot
  actionChanges : ActionChanges
  applyField : Field
  applyStatus : GameStatus
  applyFlags : Int

/- GameEngine constructor over a fresh or restored grid: the factory is
   invoked (which places mines), status starts Idle, flagsRemaining is
   the configured mine count. -/
def mkEngineWith (params : GameParams) (rng : List Position) (g : Position → Cell) :
    Option Engine :=
  (factoryCreate params rng g).map fun f =>
    { params := params, field := f, status := GameStatus.idle, flagsRemaining := params.mines }

def mkEngine (params : GameParams) (rng : List Position) : Option Engine :=
  mkEngineWith params rng fun _ => blankCell

/- GameEngine.determineStatus. -/
def Engine.determineStatus (e : Engine) (rs : FieldState) : GameStatus :=
  if 0 < rs.explodedCells.length then GameStatus.lost
  else if (rs.revealedCells.length : Int) = e.params.cols * e.params.rows - e.params.mines then
    GameStatus.won
  else GameStatus.playing

/- GameEngine.getFlagsRemaining. -/
def Engine.getFlagsRemaining (e : Engine) (rs : FieldState) : Int :=
  e.params.mines - (rs.flaggedCells.length : Int)

/- One iteration of the area.forEach body of GameEngine.openArea, over an
   accumulator (field, unflaggedCells, revealedCells); cellData is read
   before the cell is mutated, as in the source. -/
def openAreaStep (acc : Field × List CellData × List CellData) (p : Position) :
    Field × List CellData × List CellData :=
  let g := acc.1
  let cd := CellData.mk p (g.cells p)
  let acc1 :=
    if (g.cells p).isFlagged then
      (g.setCell p { g.cells p with isFlagged := false }, acc.2.1 ++ [cd], acc.2.2)
    else acc
  let g1 := acc1.1
  if !(g1.cells p).isRevealed then
    (g1.setCell p { g1.cells p with isRevealed := true }, acc1.2.1, acc1.2.2 ++ [cd])
  else acc1

/- GameEngine.openArea: reveal (and unflag) every cell of the area. -/
def openArea (f : Field) (pos : Position) : Field × List CellData × List CellData :=
  (f.areaOf pos).foldl openAreaStep (f, [], [])

/- The per-action delta lists of GameEngine.revealCell. -/
structure RevealLists where
  handledCells : List CellData
  flaggedCells : List CellData
  unflaggedCells : List CellData
  revealedCells : List CellData
  explodedCells : List CellData
deriving DecidableEq, Repr

def emptyLists : RevealLists := ⟨[], [], [], [], []⟩

/- Accumulator of the chord loop in GameEngine.handleRevealedClick. -/
structure ChordAcc where
  f : Field
  revealedCells : List CellData
  unflaggedCells : List CellData
  explodedCells : List CellData

/- One iteration of the chord loop: skip flagged or revealed siblings
   (checked against the current, possibly already mutated field); reveal
   a mined sibling and record it exploded (getData after the mutation);
   open the area of a safe sibling. -/
def chordStep (acc : ChordAcc) (s : Position) : ChordAcc :=
  let sc := acc.f.cells s
  if sc.isFlagged || sc.isRevealed then acc
  else if sc.isMine && !sc.isFlagged then
    let g := acc.f.setCell s { sc with isRevealed := true }
    { acc with f := g, explodedCells := acc.explodedCells ++ [CellData.mk s (g.cells s)] }
  else
    let r := openArea acc.f s
    { acc with
        f := r.1
        revealedCells := acc.revealedCells ++ r.2.2
        unflaggedCells := acc.unflaggedCells ++ r.2.1 }

/- GameEngine.handleRevealedClick: if the flagged-sibling count equals
   the target's number, record the untouched siblings as handled and run
   the chord loop over all siblings; otherwise nothing happens. -/
def handleRevealedClick (f : Field) (tpos : Position) : Field × RevealLists :=
  let target := f.cells tpos
  let sibs := f.getSiblings tpos
  let closedSiblings := sibs.filter fun s => (f.cells s).isUntouched
  let flags := (sibs.filter fun s => (f.cells s).isFlagged).length
  if (flags : Int) = target.adjacentMines then
    let handled := closedSiblings.map fun s => CellData.mk s (f.cells s)
    let acc := sibs.foldl chordStep ⟨f, [], [], []⟩
    (acc.f,
      { handledCells := handled
        flaggedCells := []
        unflaggedCells := acc.unflaggedCells
        revealedCells := acc.revealedCells
        explodedCells := acc.explodedCells })
  else (f, emptyLists)

/- Step 1 of GameEngine.revealCell: the Idle-status block (lazy mine
   placement, first-move relocation of a mined target using the first
   unmined cell in row-major order, transition to Playing; Lost when no
   unmined cell exists). Reading the target cell faults out of bounds. -/
def revealIdleStep (e : Engine) (pos : Position) (operated0 : Field) :
    Option (Field × GameStatus) :=
  if e.status = GameStatus.idle then do
    let fm ← if !operated0.isMined then operated0.placeMines else some operated0
    let td ← fm.getCellData pos
    if td.data.isMine then
      match fm.findUnmined with
      | none => some (fm, GameStatus.lost)
      | some q => some (fm.relocateMine pos q, GameStatus.playing)
    else some (fm, GameStatus.playing)
  else some (operated0, e.status)

/- Step 2 of GameEngine.revealCell: the main dispatch on the target cell
   (reveal a mine as exploded / chord on a revealed cell / ordinary
   flood-fill reveal), skipped unless the working status is Playing and
   the target is unflagged. -/
def revealMain (f1 : Field) (pos : Position) (status1 : GameStatus) (target : Cell) :
    Field × RevealLists :=
  if status1 = GameStatus.playing && !target.isFlagged then
    if target.isMine then
      let cd := CellData.mk pos target
      (f1.setCell pos { target with isRevealed := true },
        { emptyLists with
            handledCells := [cd]
            explodedCells := [cd] })
    else if target.isRevealed then
      handleRevealedClick f1 pos
    else
      let cd := CellData.mk pos target
      let r := openArea f1 pos
      (r.1,
        { emptyLists with
            handledCells := [cd]
            unflaggedCells := r.2.1
            revealedCells := r.2.2 })
  else (f1, emptyLists)

/- Assembly of the GameEngine.revealCell result object: the snapshot of
   the operated field, the re-derived status, the delta lists, and the
   values the apply closure will assign. -/
def mkRevealResult (e : Engine) (pos : Position) (fl : Field × RevealLists) : ActionResult :=
  let resultState := fl.1.getState
  let actionStatus := e.determineStatus resultState
  { actionSnapshot := ⟨resultState, actionStatus⟩
    actionChanges :=
      { target := CellData.mk pos (fl.1.cells pos)
        handledCells := fl.2.handledCells
        flaggedCells := fl.2.flaggedCells
        unflaggedCells := fl.2.unflaggedCells
        revealedCells := fl.2.revealedCells
        explodedCells := fl.2.explodedCells }
    applyField := fl.1
    applyStatus := actionStatus
    applyFlags := e.getFlagsRemaining resultState }

/- GameEngine.revealCell, statement by statement over a clone of the
   live field. The method assigns to no field of the engine itself (only
   the returned apply closure does), so the live engine is unchanged. -/
def Engine.revealCell (e : Engine) (pos : Position) : Option ActionResult := do
  let step1 ← revealIdleStep e pos e.field.cloneSelf
  let target ← step1.1.getCell pos
  some (mkRevealResult e pos (revealMain step1.1 pos step1.2 target))

/- Body of GameEngine.toggleFlag once the target cell has been read:
   unflag a flagged cell; flag an unflagged one while flags remain; all
   of it only when the game is Playing and the target is unrevealed. Its
   apply closure does not assign status. -/
def mkToggleResult (e : Engine) (pos : Position) (operated : Field) (cell : Cell) :
    ActionResult :=
  let cellData := CellData.mk pos cell
  let step :=
    if e.status = GameStatus.playing && !cell.isRevealed then
      if cell.isFlagged then
        (operated.setCell pos { cell with isFlagged := false },
          ([] : List CellData), [cellData])
      else if 0 < e.flagsRemaining then
        (operated.setCell pos { cell with isFlagged := true },
          [cellData], ([] : List CellData))
      else (operated, [], [])
    else (operated, [], [])
  let resultState := step.1.getState
  { actionSnapshot := ⟨resultState, e.status⟩
    actionChanges :=
      { target := cellData
        handledCells := []
        flaggedCells := step.2.1
        unflaggedCells := step.2.2
        revealedCells := []
        explodedCells := [] }
    applyField := step.1
    applyStatus := e.status
    applyFlags := e.getFlagsRemaining resultState }

/- GameEngine.toggleFlag, operating on a clone of the live field. -/
def Engine.toggleFlag (e : Engine) (pos : Position) : Option ActionResult := do
  let operated := e.field.cloneSelf
  let cell ← operated.getCell pos
  some (mkToggleResult e pos operated cell)

/- The plain method calls, returning the result together with the
   engine as it stands after the call returns (the methods assign to no
   engine field before the apply closure is invoked). -/
def Engine.revealCellCall (e : Engine) (pos : Position) : Option ActionResult × Engine :=
  (e.revealCell pos, e)

def Engine.toggleFlagCall (e : Engine) (pos : Position) : Option ActionResult × Engine :=
  (e.toggleFlag pos, e)

/- The apply closure: a single assignment of the three captured values. -/
def Engine.applyResult (e : Engine) (r : ActionResult) : Engine :=
  { e with field := r.applyField, status := r.applyStatus, flagsRemaining := r.applyFlags }

/- GameEngine.gameSnapshot accessor. -/
def Engine.gameSnapshot (e : Engine) : GameSnapshot :=
  ⟨e.field.getState, e.status⟩

/- Solver (field-solver.ts). The probabilities Map keyed by cell
   position, in insertion order, becomes an association list; Map.has and
   Map.get become lookups on it. -/
def ProbMap : Type := List (Position × Rat)

def findProb (m : List (Position × Rat)) (p : Position) : Option Rat :=
  (m.find? fun en => en.1 == p).map fun en => en.2

/- Body of the Solver.inferCertainMines for-loop for one revealed cell:
   if the cell number equals the closed-sibling count minus the count of
   siblings already proven safe, every closed sibling without an entry is
   proven a mine. -/
def certainMinesCellStep (f : Field) (acc : List (Position × Rat) × Bool) (cd : CellData) :
    List (Position × Rat) × Bool :=
  if cd.data.isEmpty || cd.data.isMine then acc
  else
    let sibs := f.getSiblings cd.position
    let closed := sibs.filter fun s => !(f.cells s).isRevealed
    if closed.length = 0 then acc
    else
      let knownSafe := closed.filter fun s => findProb acc.1 s == some 0
      if cd.data.adjacentMines = (closed.length : Int) - (knownSafe.length : Int) then
        closed.foldl
          (fun acc2 s =>
            if (findProb acc2.1 s).isSome then acc2 else (acc2.1 ++ [(s, (1 : Rat))], true))
          acc
      else acc

def inferCertainMines (f : Field) (cells : List CellData) (probs : List (Position × Rat)) :
    List (Position × Rat) × Bool :=
  cells.foldl (certainMinesCellStep f) (probs, false)

/- Body of the Solver.inferCertainSafeCells for-loop for one revealed
   cell: if the count of siblings already proven mines equals the cell
   number, every closed sibling without an entry is proven safe. -/
def certainSafeCellStep (f : Field) (acc : List (Position × Rat) × Bool) (cd : CellData) :
    List (Position × Rat) × Bool :=
  if cd.data.isEmpty || cd.data.isMine then acc
  else
    let sibs := f.getSiblings cd.position
    let closed := sibs.filter fun s => !(f.cells s).isRevealed
    if closed.length = 0 then acc
    else
      let knownMines := closed.filter fun s => findProb acc.1 s == some 1
      if (knownMines.length : Int) = cd.data.adjacentMines then
        closed.foldl
          (fun acc2 s =>
            if (findProb acc2.1 s).isSome then acc2 else (acc2.1 ++ [(s, (0 : Rat))], true))
          acc
      else acc

def inferCertainSafeCells (f : Field) (cells : List CellData) (probs : List (Position × Rat)) :
    List (Position × Rat) × Bool :=
  cells.foldl (certainSafeCellStep f) (probs, false)

/- The do-while loop of Solver.solve: run both certain rules, repeat
   while either reported an update. The loop adds at least one entry per
   repeated pass and entry positions are sibling cells, so rows*cols + 1
   rounds of fuel cover every run; soundness below holds for any fuel. -/
def solveLoop (f : Field) (revealed : List CellData) :
    Nat → List (Position × Rat) → List (Position × Rat)
  | 0, probs => probs
  | fuel + 1, probs =>
    let r1 := inferCertainMines f revealed probs
    let r2 := inferCertainSafeCells f revealed r1.1
    if r1.2 || r2.2 then solveLoop f revealed fuel r2.1 else r2.1

/- Solver.solve: the set-theory heuristic call below the loop is
   commented out in the source, so the returned probabilities are exactly
   the fixed point of the two certain rules. -/
def solve (f : Field) : List (Position × Rat) :=
  solveLoop f (f.getState).revealedCells (f.params.rows.toNat * f.params.cols.toNat + 1) []

/- Solver.generateAllAssignments: all 2 ^ n mine/no-mine assignments over
   the variable list, assignment i mapping variable j to bit j of i. -/
def generateAllAssignments (vs : List Position) : List (List (Position × Bool)) :=
  (List.range (1 <<< vs.length)).map fun i =>
    vs.enum.map fun jv => (jv.2, ((i >>> jv.1) &&& 1) == 1)

/- Specification-side definitions, used to state the claims. -/

/- The flood-fill reveal area as the spec describes it: the origin,
   every empty cell transitively reachable from it through sibling steps,
   and every cell bordering such an empty cell (the numbered border). -/
inductive InArea (f : Field) (origin : Position) : Position → Prop where
  | base : InArea f origin origin
  | step (p q : Position) : InArea f origin p → (f.cells p).isEmpty = true →
      q ∈ f.getSiblings p → InArea f origin q

/- The number of mined cells among the in-bounds 8-neighborhood. -/
def minedSiblingCount (f : Field) (p : Position) : Nat :=
  ((f.getSiblings p).filter fun s => (f.cells s).isMine).length

/- The number of mined in-bounds cells of a field. -/
def minedCount (f : Field) : Nat :=
  (f.allPositions.filter fun p => (f.cells p).isMine).length

/- Invariant I1 of the spec: every cell's adjacentMines equals the live
   count of its mined neighbors. -/
def AdjInvariant (f : Field) : Prop :=
  ∀ p : Position, f.isInBoundary p = true →
    (f.cells p).adjacentMines = (minedSiblingCount f p : Int)

/- A field in which every mined cell is still unrevealed (no exploded
   cell), as holds while a game has not been lost. -/
def NoExploded (f : Field) : Prop :=
  ∀ p : Position, f.isInBoundary p = true → (f.cells p).isMine = true →
    (f.cells p).isRevealed = false

/- Engines as they can exist after the constructor ran: the factory
   placed mines, so either a mine exists on the grid (hence the
   isMined flag recomputed by cloneSelf is true) or the configured count
   asks for no mines; either way the lazy placeMines call inside
   revealCell leaves every cell unchanged. -/
def Engine.seeded (e : Engine) : Prop :=
  (e.field.allPositions.any fun p => (e.field.cells p).isMine) = true ∨
    ¬(0 < e.field.params.mines)

/- Soundness of a probability map against the ground-truth field: an
   entry 0 marks a non-mined cell, an entry 1 a mined cell. -/
def SoundProbs (f : Field) (probs : List (Position × Rat)) : Prop :=
  ∀ (p : Position) (v : Rat), findProb probs p = some v →
    ((v = 0 → (f.cells p).isMine = false) ∧ (v = 1 → (f.cells p).isMine = true))

/- Engine states reachable by constructing a fresh engine (with in-bounds
   random draws, as Math.random-based draws always are) and applying any
   sequence of committed reveal/flag actions. -/
inductive Reachable : Engine → Prop where
  | init (params : GameParams) (rng : List Position) (e : Engine) :
      (∀ d ∈ rng, (blankField params rng).isInBoundary d = true) →
      mkEngine params rng = some e → Reachable e
  | reveal (e : Engine) (p : Position) (r : ActionResult) :
      Reachable e → e.revealCell p = some r → Reachable (e.applyResult r)
  | flag (e : Engine) (p : Position) (r : ActionResult) :
      Reachable e → e.toggleFlag p = some r → Reachable (e.applyResult r)

/- Concrete instances used by witnesses and counterexamples. -/

def defaultEngine : Engine :=
  { params := ⟨0, 0, 0⟩
    field := { params := ⟨0, 0, 0⟩, cells := fun _ => blankCell, isMined := false, rng := [] }
    status := GameStatus.idle
    flagsRemaining := 0 }

def defaultResult : ActionResult :=
  { actionSnapshot := ⟨defaultEngine.field.getState, GameStatus.idle⟩
    actionChanges :=
      { target := CellData.mk ⟨0, 0⟩ blankCell
        handledCells := []
        flaggedCells := []
        unflaggedCells := []
        revealedCells := []
        explodedCells := [] }
    applyField := defaultEngine.field
    applyStatus := GameStatus.idle
    applyFlags := 0 }

/- A fresh 1 x 1, zero-mine game (the spec's Won example). -/
def engineA : Engine := (mkEngine ⟨1, 1, 0⟩ []).getD defaultEngine

/- A fresh 2 x 2 game whose single mine is drawn at (0, 0). -/
def engineB : Engine := (mkEngine ⟨2, 2, 1⟩ [⟨0, 0⟩]).getD defaultEngine

/- A restored 1 x 2 game whose saved grid has a flagged mine at (0, 0):
   the engine starts Idle again, so revealing the flagged cell triggers
   the first-move relocation even though the reveal itself is refused. -/
def cellsC6 : Position → Cell := fun p =>
  if p = ⟨0, 0⟩ then { isMine := true, isRevealed := false, isFlagged := true, adjacentMines := 0 }
  else if p = ⟨0, 1⟩ then
    { isMine := false, isRevealed := false, isFlagged := false, adjacentMines := 1 }
  else blankCell

def engineC6 : Engine := (mkEngineWith ⟨1, 2, 1⟩ [] cellsC6).getD defaultEngine

/- A 1 x 3 lost-game board: the mine at (0, 0) is revealed (exploded),
   (0, 1) shows 1, (0, 2) is closed and safe. -/
def cellsC8 : Position → Cell := fun p =>
  if p = ⟨0, 0⟩ then { isMine := true, isRevealed := true, isFlagged := false, adjacentMines := 0 }
  else if p = ⟨0, 1⟩ then
    { isMine := false, isRevealed := true, isFlagged := false, adjacentMines := 1 }
  else blankCell

def fieldC8 : Field := (factoryCreate ⟨1, 3, 1⟩ [] cellsC8).getD (blankField ⟨1, 3, 1⟩ [])

/- A 2 x 2 board with (0, 0) revealed showing 1 and three closed
   neighbors, one of them the mine: the certain rules settle nothing and
   the frontier component has three variables. -/
def cellsC9 : Position → Cell := fun p =>
  if p = ⟨0, 0⟩ then { isMine := false, isRevealed := true, isFlagged := false, adjacentMines := 1 }
  else if p = ⟨1, 1⟩ then
    { isMine := true, isRevealed := false, isFlagged := false, adjacentMines := 0 }
  else { isMine := false, isRevealed := false, isFlagged := false, adjacentMines := 1 }

def fieldC9 : Field := (factoryCreate ⟨2, 2, 1⟩ [] cellsC9).getD (blankField ⟨2, 2, 1⟩ [])

/- The outcome of revealing a flagged mine on a freshly restored board:
   used to compare against the engine claims. -/
def resultC6 : ActionResult := (engineC6.revealCell ⟨0, 0⟩).getD defaultResult

/- A restored 1 x 2 game with the mine at (0, 0) and a wrong flag on the
   safe cell (0, 1). -/
def cellsD : Position → Cell := fun p =>
  if p = ⟨0, 0⟩ then { isMine := true, isRevealed := false, isFlagged := false, adjacentMines := 1 }
  else if p = ⟨0, 1⟩ then
    { isMine := false, isRevealed := false, isFlagged := true, adjacentMines := 1 }
  else blankCell

def engineD : Engine := (mkEngineWith ⟨1, 2, 1⟩ [] cellsD).getD defaultEngine

/- A mid-game 1 x 3 board for the chording scenario: flagged mine at
   (0, 0), revealed 1 at (0, 1), untouched empty cell at (0, 2). -/
def cellsW : Position → Cell := fun p =>
  if p = ⟨0, 0⟩ then
    { isMine := true, isRevealed := false, isFlagged := true, adjacentMines := 0 }
  else if p = ⟨0, 1⟩ then
    { isMine := false, isRevealed := true, isFlagged := false, adjacentMines := 1 }
  else { isMine := false, isRevealed := false, isFlagged := false, adjacentMines := 0 }

def engineW : Engine :=
  { params := ⟨1, 3, 1⟩
    field := fieldOfCells ⟨1, 3, 1⟩ [] cellsW
    status := GameStatus.playing
    flagsRemaining := 0 }

/- A silent no-op action result: all four delta lists empty and the
   previewed per-cell state identical to the live snapshot. -/
def UnchangedNoop (e : Engine) (r : ActionResult) : Prop :=
  r.actionChanges.revealedCells = [] ∧ r.actionChanges.flaggedCells = [] ∧
    r.actionChanges.unflaggedCells = [] ∧ r.actionChanges.explodedCells = [] ∧
    r.actionSnapshot.state = e.field.getState

/- Basic lemmas about the board geometry and grid updates. -/

theorem foldl_inv {α β : Type} (P : β → Prop) (step : β → α → β) (l : List α)
    (h : ∀ b, ∀ a ∈ l, P b → P (step b a)) (b : β) (hb : P b) : P (l.foldl step b) := by
  induction l generalizing b with
  | nil => exact hb
  | cons x xs ih =>
    exact ih (fun b a ha hpb => h b a (List.mem_cons_of_mem _ ha) hpb) _
      (h b x (List.mem_cons_self _ _) hb)

theorem isInBoundary_iff {f : Field} {p : Position} :
    f.isInBoundary p = true ↔
      0 ≤ p.col ∧ 0 ≤ p.row ∧ p.col < f.params.cols ∧ p.row < f.params.rows := by
  simp [Field.isInBoundary, Bool.and_eq_true, and_assoc]

theorem mem_intRange {n x : Int} : x ∈ intRange n ↔ 0 ≤ x ∧ x < n := by
  unfold intRange
  simp only [List.mem_map, List.mem_range]
  constructor
  · rintro ⟨k, hk, rfl⟩
    omega
  · intro h
    exact ⟨x.toNat, by omega, by omega⟩

theorem nodup_intRange (n : Int) : (intRange n).Nodup := by
  unfold intRange
  exact (List.nodup_range _).map fun a b hab => by omega

theorem mem_allPositions {f : Field} {p : Position} :
    p ∈ f.allPositions ↔ f.isInBoundary p = true := by
  unfold Field.allPositions
  rw [isInBoundary_iff]
  simp only [List.mem_flatMap, List.mem_map, mem_intRange]
  cases p with
  | mk pr pc =>
    constructor
    · rintro ⟨r, hr, c, hc, heq⟩
      rw [Position.mk.injEq] at heq
      dsimp only
      omega
    · intro h
      dsimp only at h
      exact ⟨pr, by omega, pc, by omega, rfl⟩

theorem nodup_allPositions (f : Field) : f.allPositions.Nodup := by
  unfold Field.allPositions
  rw [List.nodup_flatMap]
  constructor
  · intro r _
    apply List.Nodup.map
    · intro a b hab
      rw [Position.mk.injEq] at hab
      exact hab.2
    · exact nodup_intRange _
  · apply List.Pairwise.imp ?_ ((nodup_intRange f.params.rows))
    intro a b hab
    simp only [Function.onFun, List.disjoint_left, List.mem_map]
    rintro q ⟨c1, -, rfl⟩ ⟨c2, -, heq⟩
    rw [Position.mk.injEq] at heq
    exact hab heq.1.symm

theorem mem_getSiblings {f : Field} {p q : Position} :
    q ∈ f.getSiblings p ↔
      f.isInBoundary q = true ∧ ¬(q.row = p.row ∧ q.col = p.col) ∧
        q.row - p.row ≤ 1 ∧ p.row - q.row ≤ 1 ∧ q.col - p.col ≤ 1 ∧ p.col - q.col ≤ 1 := by
  unfold Field.getSiblings siblingOffsets
  simp only [List.map_cons, List.map_nil, List.mem_filter, List.mem_cons,
    List.not_mem_nil, or_false]
  cases p with
  | mk pr pc =>
    cases q with
    | mk qr qc =>
      simp only [Position.mk.injEq]
      constructor
      · rintro ⟨h, hb⟩
        refine ⟨hb, ?_⟩
        omega
      · rintro ⟨hb, h⟩
        refine ⟨?_, hb⟩
        omega

theorem getSiblings_inB {f : Field} {p q : Position} (h : q ∈ f.getSiblings p) :
    f.isInBoundary q = true :=
  (List.mem_filter.mp h).2

theorem getSiblings_symm {f : Field} {p q : Position} (hp : f.isInBoundary p = true)
    (h : q ∈ f.getSiblings p) : p ∈ f.getSiblings q := by
  rw [mem_getSiblings] at h ⊢
  obtain ⟨hb, hrest⟩ := h
  exact ⟨hp, by omega⟩

theorem self_not_mem_getSiblings {f : Field} {p : Position} : p ∉ f.getSiblings p := by
  rw [mem_getSiblings]
  rintro ⟨-, h, -⟩
  exact h ⟨rfl, rfl⟩

theorem nodup_getSiblings (f : Field) (p : Position) : (f.getSiblings p).Nodup := by
  apply List.Nodup.filter
  apply List.Nodup.map
  · intro a b hab
    rw [Position.mk.injEq] at hab
    obtain ⟨h2, h1⟩ := hab
    exact Prod.ext (by omega) (by omega)
  · decide

theorem length_getSiblings_le (f : Field) (p : Position) : (f.getSiblings p).length ≤ 8 := by
  unfold Field.getSiblings
  calc ((siblingOffsets.map fun d => Position.mk (p.row + d.2) (p.col + d.1)).filter
          fun q => f.isInBoundary q).length
      ≤ (siblingOffsets.map fun d => Position.mk (p.row + d.2) (p.col + d.1)).length :=
        List.length_filter_le _ _
    _ = 8 := by rfl

/- Grid update lemmas. -/

theorem cells_setCell (f : Field) (p : Position) (c : Cell) (q : Position) :
    (f.setCell p c).cells q = if q = p then c else f.cells q := rfl

theorem params_setCell (f : Field) (p : Position) (c : Cell) :
    (f.setCell p c).params = f.params := rfl

theorem isInBoundary_congr {f g : Field} (h : g.params = f.params) :
    g.isInBoundary = f.isInBoundary := by
  funext p
  unfold Field.isInBoundary
  rw [h]

theorem getSiblings_congr {f g : Field} (h : g.params = f.params) :
    g.getSiblings = f.getSiblings := by
  funext p
  unfold Field.getSiblings
  rw [isInBoundary_congr h]

theorem allPositions_congr {f g : Field} (h : g.params = f.params) :
    g.allPositions = f.allPositions := by
  unfold Field.allPositions
  rw [h]

theorem params_foldl (step : Field → Position → Field)
    (hstep : ∀ g s, (step g s).params = g.params) (l : List Position) (f : Field) :
    (l.foldl step f).params = f.params :=
  foldl_inv (fun g : Field => g.params = f.params) step l
    (fun g s _ hg => by simpa [hstep g s] using hg) f rfl

theorem cells_foldl_pointwise (step : Field → Position → Field) (u : Cell → Cell)
    (hstep : ∀ g s q, (step g s).cells q = if q = s then u (g.cells s) else g.cells q)
    (l : List Position) (hnd : l.Nodup) (f : Field) (q : Position) :
    (l.foldl step f).cells q = if q ∈ l then u (f.cells q) else f.cells q := by
  induction l generalizing f with
  | nil => simp
  | cons x xs ih =>
    simp only [List.foldl_cons]
    rw [ih (List.Nodup.of_cons hnd)]
    by_cases hq : q ∈ xs
    · have hqx : q ≠ x := fun h => (List.nodup_cons.mp hnd).1 (h ▸ hq)
      simp [hq, hqx, hstep]
    · by_cases hqx : q = x
      · subst hqx
        simp [hq, hstep]
      · simp [hq, hqx, hstep]

theorem getSiblings_setCell (f : Field) (p : Position) (c : Cell) (q : Position) :
    (f.setCell p c).getSiblings q = f.getSiblings q := rfl

theorem params_mineCell (f : Field) (p : Position) : (f.mineCell p).params = f.params := by
  unfold Field.mineCell
  rw [params_foldl]
  · rfl
  · intro g s
    rfl

theorem params_unMineCell (f : Field) (p : Position) : (f.unMineCell p).params = f.params := by
  unfold Field.unMineCell
  rw [params_foldl]
  · rfl
  · intro g s
    rfl

theorem cells_mineCell (f : Field) (p q : Position) :
    (f.mineCell p).cells q =
      if q = p then { f.cells p with isMine := true }
      else if q ∈ f.getSiblings p then
        { f.cells q with adjacentMines := (f.cells q).adjacentMines + 1 }
      else f.cells q := by
  unfold Field.mineCell
  rw [cells_foldl_pointwise _ (fun c => { c with adjacentMines := c.adjacentMines + 1 })
    (fun g s q => rfl) _ (nodup_getSiblings _ _)]
  by_cases hqp : q = p
  · subst hqp
    simp [self_not_mem_getSiblings, cells_setCell, getSiblings_setCell]
  · by_cases hqs : q ∈ f.getSiblings p
    · simp [hqs, hqp, cells_setCell, getSiblings_setCell]
    · simp [hqs, hqp, cells_setCell, getSiblings_setCell]

theorem cells_unMineCell (f : Field) (p q : Position) :
    (f.unMineCell p).cells q =
      if q = p then { f.cells p with isMine := false }
      else if q ∈ f.getSiblings p then
        { f.cells q with adjacentMines := (f.cells q).adjacentMines - 1 }
      else f.cells q := by
  unfold Field.unMineCell
  rw [cells_foldl_pointwise _ (fun c => { c with adjacentMines := c.adjacentMines - 1 })
    (fun g s q => rfl) _ (nodup_getSiblings _ _)]
  by_cases hqp : q = p
  · subst hqp
    simp [self_not_mem_getSiblings, cells_setCell, getSiblings_setCell]
  · by_cases hqs : q ∈ f.getSiblings p
    · simp [hqs, hqp, cells_setCell, getSiblings_setCell]
    · simp [hqs, hqp, cells_setCell, getSiblings_setCell]

theorem length_filter_flip {α : Type} [DecidableEq α] (pred pred2 : α → Bool) (a : α)
    (l : List α) (hnd : l.Nodup) (ha : a ∈ l) (hfa : pred a = false)
    (hpt : ∀ x, pred2 x = (if x = a then true else pred x)) :
    (l.filter pred2).length = (l.filter pred).length + 1 := by
  induction l with
  | nil => cases ha
  | cons x xs ih =>
    have hnx : x ∉ xs := (List.nodup_cons.mp hnd).1
    rcases List.mem_cons.mp ha with hax | hax
    · have hanotin : a ∉ xs := by rw [hax]; exact hnx
      have hfilter : xs.filter pred2 = xs.filter pred := by
        apply List.filter_congr
        intro b hb
        rw [hpt]
        have hba : b ≠ a := fun h => hanotin (h ▸ hb)
        simp [hba]
      have hx2 : pred2 x = true := by rw [hpt, ← hax]; simp
      rw [List.filter_cons, List.filter_cons, hx2, ← hax, hfa]
      simp [hfilter]
    · have hax2 : x ≠ a := fun h => hnx (h ▸ hax)
      have hx2 : pred2 x = pred x := by rw [hpt]; simp [hax2]
      rw [List.filter_cons, List.filter_cons, hx2]
      by_cases hpx : pred x = true
      · simp only [hpx, if_true, List.length_cons]
        rw [ih (List.Nodup.of_cons hnd) hax]
      · simp only [Bool.not_eq_true] at hpx
        simp only [hpx, Bool.false_eq_true, if_false]
        exact ih (List.Nodup.of_cons hnd) hax

/- Pointwise effect of mining and unmining a cell. -/

theorem isMine_mineCell (f : Field) (p q : Position) :
    ((f.mineCell p).cells q).isMine = (if q = p then true else (f.cells q).isMine) := by
  rw [cells_mineCell]
  by_cases hqp : q = p
  · simp [hqp]
  · by_cases hqs : q ∈ f.getSiblings p <;> simp [hqp, hqs]

theorem isMine_unMineCell (f : Field) (p q : Position) :
    ((f.unMineCell p).cells q).isMine = (if q = p then false else (f.cells q).isMine) := by
  rw [cells_unMineCell]
  by_cases hqp : q = p
  · simp [hqp]
  · by_cases hqs : q ∈ f.getSiblings p <;> simp [hqp, hqs]

theorem isRevealed_mineCell (f : Field) (p q : Position) :
    ((f.mineCell p).cells q).isRevealed = (f.cells q).isRevealed := by
  rw [cells_mineCell]
  by_cases hqp : q = p
  · simp [hqp]
  · by_cases hqs : q ∈ f.getSiblings p <;> simp [hqp, hqs]

theorem isFlagged_mineCell (f : Field) (p q : Position) :
    ((f.mineCell p).cells q).isFlagged = (f.cells q).isFlagged := by
  rw [cells_mineCell]
  by_cases hqp : q = p
  · simp [hqp]
  · by_cases hqs : q ∈ f.getSiblings p <;> simp [hqp, hqs]

theorem adjacentMines_mineCell (f : Field) (p q : Position) :
    ((f.mineCell p).cells q).adjacentMines =
      (f.cells q).adjacentMines + (if q ∈ f.getSiblings p then 1 else 0) := by
  rw [cells_mineCell]
  by_cases hqp : q = p
  · subst hqp
    simp [self_not_mem_getSiblings]
  · by_cases hqs : q ∈ f.getSiblings p <;> simp [hqp, hqs]

theorem adjacentMines_unMineCell (f : Field) (p q : Position) :
    ((f.unMineCell p).cells q).adjacentMines =
      (f.cells q).adjacentMines - (if q ∈ f.getSiblings p then 1 else 0) := by
  rw [cells_unMineCell]
  by_cases hqp : q = p
  · subst hqp
    simp [self_not_mem_getSiblings]
  · by_cases hqs : q ∈ f.getSiblings p <;> simp [hqp, hqs]

theorem minedSiblingCount_mineCell (f : Field) (p : Position)
    (hm : (f.cells p).isMine = false) (q : Position) :
    (minedSiblingCount (f.mineCell p) q : Int) =
      (minedSiblingCount f q : Int) + (if p ∈ f.getSiblings q then 1 else 0) := by
  unfold minedSiblingCount
  rw [getSiblings_congr (params_mineCell f p)]
  by_cases hpq : p ∈ f.getSiblings q
  · rw [length_filter_flip (fun s => (f.cells s).isMine)
      (fun s => ((f.mineCell p).cells s).isMine) p _ (nodup_getSiblings f q) hpq hm
      (fun x => isMine_mineCell f p x)]
    simp [hpq]
  · have : (f.getSiblings q).filter (fun s => ((f.mineCell p).cells s).isMine) =
        (f.getSiblings q).filter (fun s => (f.cells s).isMine) := by
      apply List.filter_congr
      intro s hs
      rw [isMine_mineCell]
      have : s ≠ p := fun h => hpq (h ▸ hs)
      simp [this]
    rw [this]
    simp [hpq]

theorem minedSiblingCount_unMineCell (f : Field) (p : Position)
    (hm : (f.cells p).isMine = true) (q : Position) :
    (minedSiblingCount (f.unMineCell p) q : Int) =
      (minedSiblingCount f q : Int) - (if p ∈ f.getSiblings q then 1 else 0) := by
  unfold minedSiblingCount
  rw [getSiblings_congr (params_unMineCell f p)]
  by_cases hpq : p ∈ f.getSiblings q
  · have hflip := length_filter_flip (fun s => ((f.unMineCell p).cells s).isMine)
      (fun s => (f.cells s).isMine) p _ (nodup_getSiblings f q) hpq
      (by
        show ((f.unMineCell p).cells p).isMine = false
        rw [isMine_unMineCell]
        simp)
      (fun x => by
        show (f.cells x).isMine = if x = p then true else ((f.unMineCell p).cells x).isMine
        rw [isMine_unMineCell]
        by_cases hxp : x = p
        · simp [hxp, hm]
        · simp [hxp])
    rw [hflip]
    simp [hpq]
  · have : (f.getSiblings q).filter (fun s => ((f.unMineCell p).cells s).isMine) =
        (f.getSiblings q).filter (fun s => (f.cells s).isMine) := by
      apply List.filter_congr
      intro s hs
      rw [isMine_unMineCell]
      have : s ≠ p := fun h => hpq (h ▸ hs)
      simp [this]
    rw [this]
    simp [hpq]

/- Invariant I1 is maintained incrementally by mineCell and unMineCell. -/

theorem adjInvariant_mineCell {f : Field} {p : Position} (hf : AdjInvariant f)
    (hp : f.isInBoundary p = true) (hm : (f.cells p).isMine = false) :
    AdjInvariant (f.mineCell p) := by
  intro q hq
  have hq2 : f.isInBoundary q = true := by
    rw [← isInBoundary_congr (params_mineCell f p)]
    exact hq
  rw [adjacentMines_mineCell, minedSiblingCount_mineCell f p hm q, hf q hq2]
  have hiff : q ∈ f.getSiblings p ↔ p ∈ f.getSiblings q :=
    ⟨getSiblings_symm hp, getSiblings_symm hq2⟩
  by_cases h : q ∈ f.getSiblings p
  · simp [h, hiff.mp h]
  · have h2 : p ∉ f.getSiblings q := fun hc => h (hiff.mpr hc)
    simp [h, h2]

theorem adjInvariant_unMineCell {f : Field} {p : Position} (hf : AdjInvariant f)
    (hp : f.isInBoundary p = true) (hm : (f.cells p).isMine = true) :
    AdjInvariant (f.unMineCell p) := by
  intro q hq
  have hq2 : f.isInBoundary q = true := by
    rw [← isInBoundary_congr (params_unMineCell f p)]
    exact hq
  rw [adjacentMines_unMineCell, minedSiblingCount_unMineCell f p hm q, hf q hq2]
  have hiff : q ∈ f.getSiblings p ↔ p ∈ f.getSiblings q :=
    ⟨getSiblings_symm hp, getSiblings_symm hq2⟩
  by_cases h : q ∈ f.getSiblings p
  · simp [h, hiff.mp h]
  · have h2 : p ∉ f.getSiblings q := fun hc => h (hiff.mpr hc)
    simp [h, h2]

theorem params_relocateMine (f : Field) (a b : Position) :
    (f.relocateMine a b).params = f.params := by
  unfold Field.relocateMine
  rw [params_mineCell, params_unMineCell]

theorem adjInvariant_relocateMine {f : Field} {a b : Position} (hf : AdjInvariant f)
    (ha : f.isInBoundary a = true) (hma : (f.cells a).isMine = true)
    (hb : f.isInBoundary b = true) (hmb : (f.cells b).isMine = false) :
    AdjInvariant (f.relocateMine a b) := by
  unfold Field.relocateMine
  apply adjInvariant_mineCell (adjInvariant_unMineCell hf ha hma)
  · rw [isInBoundary_congr (params_unMineCell f a)]
    exact hb
  · rw [isMine_unMineCell]
    by_cases hba : b = a
    · simp [hba]
    · simp [hba, hmb]

/- Bookkeeping preserved by mineCell, and the placeMines loop spec. -/

theorem isMined_foldl (step : Field → Position → Field)
    (hstep : ∀ g s, (step g s).isMined = g.isMined) (l : List Position) (f : Field) :
    (l.foldl step f).isMined = f.isMined :=
  foldl_inv (fun g : Field => g.isMined = f.isMined) step l
    (fun g s _ hg => by simpa [hstep g s] using hg) f rfl

theorem rng_foldl (step : Field → Position → Field)
    (hstep : ∀ g s, (step g s).rng = g.rng) (l : List Position) (f : Field) :
    (l.foldl step f).rng = f.rng :=
  foldl_inv (fun g : Field => g.rng = f.rng) step l
    (fun g s _ hg => by simpa [hstep g s] using hg) f rfl

theorem isMined_mineCell (f : Field) (p : Position) : (f.mineCell p).isMined = f.isMined := by
  unfold Field.mineCell
  rw [isMined_foldl]
  · rfl
  · intro g s
    rfl

theorem rng_mineCell (f : Field) (p : Position) : (f.mineCell p).rng = f.rng := by
  unfold Field.mineCell
  rw [rng_foldl]
  · rfl
  · intro g s
    rfl

theorem minedCount_mineCell {f : Field} {p : Position} (hp : f.isInBoundary p = true)
    (hm : (f.cells p).isMine = false) :
    minedCount (f.mineCell p) = minedCount f + 1 := by
  unfold minedCount
  rw [allPositions_congr (params_mineCell f p)]
  exact length_filter_flip (fun q => (f.cells q).isMine)
    (fun q => ((f.mineCell p).cells q).isMine) p _ (nodup_allPositions f)
    (mem_allPositions.mpr hp) hm (fun x => isMine_mineCell f p x)

theorem placeMinesGo_spec (mines : Int) (draws : List Position) :
    ∀ (f : Field) (avoid : List Position) (count : Int) (g : Field),
      placeMinesGo mines f avoid count draws = some g →
      (∀ d ∈ draws, f.isInBoundary d = true) →
      (∀ p, (f.cells p).isMine = true → p ∈ avoid) →
      count ≤ mines →
      AdjInvariant f →
      (AdjInvariant g ∧ g.params = f.params ∧ g.isMined = f.isMined ∧ g.rng = f.rng ∧
        (∀ q, (g.cells q).isRevealed = (f.cells q).isRevealed ∧
              (g.cells q).isFlagged = (f.cells q).isFlagged) ∧
        (minedCount g : Int) = (minedCount f : Int) + (mines - count)) := by
  induction draws with
  | nil =>
    intro f avoid count g hrun hdraws havoid hcount hinv
    unfold placeMinesGo at hrun
    by_cases hlt : count < mines
    · rw [if_pos hlt] at hrun
      cases hrun
    · rw [if_neg hlt] at hrun
      cases hrun
      refine ⟨hinv, rfl, rfl, rfl, fun q => ⟨rfl, rfl⟩, by omega⟩
  | cons d rest ih =>
    intro f avoid count g hrun hdraws havoid hcount hinv
    unfold placeMinesGo at hrun
    by_cases hlt : count < mines
    · rw [if_pos hlt] at hrun
      by_cases hdav : d ∈ avoid
      · rw [if_pos hdav] at hrun
        exact ih f avoid count g hrun
          (fun x hx => hdraws x (List.mem_cons_of_mem _ hx)) havoid hcount hinv
      · rw [if_neg hdav] at hrun
        have hd : f.isInBoundary d = true := hdraws d (List.mem_cons_self _ _)
        have hdm : (f.cells d).isMine = false := by
          by_contra hc
          simp only [Bool.not_eq_false] at hc
          exact hdav (havoid d hc)
        obtain ⟨h1, h2, h3, h4, h5, h6⟩ := ih (f.mineCell d) (d :: avoid) (count + 1) g hrun
          (fun x hx => by
            rw [isInBoundary_congr (params_mineCell f d)]
            exact hdraws x (List.mem_cons_of_mem _ hx))
          (fun p hp => by
            rw [isMine_mineCell] at hp
            by_cases hpd : p = d
            · exact hpd ▸ List.mem_cons_self _ _
            · rw [if_neg hpd] at hp
              exact List.mem_cons_of_mem _ (havoid p hp))
          (by omega)
          (adjInvariant_mineCell hinv hd hdm)
        refine ⟨h1, by rw [h2, params_mineCell], by rw [h3, isMined_mineCell],
          by rw [h4, rng_mineCell], ?_, ?_⟩
        · intro q
          obtain ⟨hr, hf⟩ := h5 q
          rw [hr, hf, isRevealed_mineCell, isFlagged_mineCell]
          exact ⟨rfl, rfl⟩
        · rw [h6, minedCount_mineCell hd hdm]
          push_cast
          omega
    · rw [if_neg hlt] at hrun
      cases hrun
      refine ⟨hinv, rfl, rfl, rfl, fun q => ⟨rfl, rfl⟩, by omega⟩

theorem placeMines_seeded {f : Field} (h : f.isMined = true ∨ ¬ 0 < f.params.mines) :
    f.placeMines = some { f with isMined := true } := by
  unfold Field.placeMines
  rcases h with h | h
  · rw [if_pos h]
    congr 1
    cases f with
    | mk params cells isMined rng =>
      simp only at h
      rw [h]
  · by_cases hm : f.isMined = true
    · rw [if_pos hm]
      congr 1
      cases f with
      | mk params cells isMined rng =>
        simp only at hm
        rw [hm]
    · rw [if_neg hm]
      have h0 : ¬((0 : Int) < f.params.mines) := h
      cases hrng : f.rng with
      | nil => simp [placeMinesGo, h0]
      | cons d rest => simp [placeMinesGo, h0]

/- Flood-fill: correctness of the breadth-first reveal traversal. -/

theorem length_intRange (n : Int) : (intRange n).length = n.toNat := by
  unfold intRange
  simp

theorem length_allPositions (f : Field) :
    f.allPositions.length = f.params.rows.toNat * f.params.cols.toNat := by
  unfold Field.allPositions
  rw [List.length_flatMap]
  have h1 : (List.map
      (List.length ∘ fun r => List.map (fun c => Position.mk r c) (intRange f.params.cols))
      (intRange f.params.rows)) =
      List.map (fun _ => f.params.cols.toNat) (intRange f.params.rows) := by
    apply List.map_congr_left
    intro r _
    simp [length_intRange]
  rw [h1, List.map_const', List.sum_replicate, length_intRange, smul_eq_mul]

theorem inArea_inB {f : Field} {o q : Position} (ho : f.isInBoundary o = true)
    (h : InArea f o q) : f.isInBoundary q = true := by
  induction h with
  | base => exact ho
  | step p q hp hemp hs ih => exact getSiblings_inB hs

theorem inArea_closed {f : Field} {o : Position} {R : List Position} (hoR : o ∈ R)
    (hcl : ∀ v ∈ R, (f.cells v).isEmpty = true → ∀ s ∈ f.getSiblings v, s ∈ R) :
    ∀ q, InArea f o q → q ∈ R := by
  intro q h
  induction h with
  | base => exact hoR
  | step p q hp hemp hs ih => exact hcl p ih hemp q hs

theorem bfs_done (f : Field) (o : Position) (visited : Position → Bool) (res : List Position)
    (hvr : ∀ q, visited q = true ↔ q ∈ res)
    (hra : ∀ q ∈ res, InArea f o q)
    (hcl : ∀ v, visited v = true → (f.cells v).isEmpty = true →
      ∀ s ∈ f.getSiblings v, visited s = true ∨ s ∈ ([] : List Position))
    (ho : o ∈ res ∨ o ∈ ([] : List Position)) :
    (∀ q ∈ res.reverse, InArea f o q) ∧ (∀ q ∈ res, q ∈ res.reverse) ∧ o ∈ res.reverse ∧
      (∀ v ∈ res.reverse, (f.cells v).isEmpty = true →
        ∀ s ∈ f.getSiblings v, s ∈ res.reverse) := by
  refine ⟨?_, ?_, ?_, ?_⟩
  · intro q hq
    exact hra q (List.mem_reverse.mp hq)
  · intro q hq
    exact List.mem_reverse.mpr hq
  · rcases ho with h | h
    · exact List.mem_reverse.mpr h
    · cases h
  · intro v hv hemp s hs
    rcases hcl v ((hvr v).mpr (List.mem_reverse.mp hv)) hemp s hs with h | h
    · exact List.mem_reverse.mpr ((hvr s).mp h)
    · cases h

theorem revealBfs_spec (f : Field) (o : Position) :
    ∀ (fuel : Nat) (queue : List Position) (visited : Position → Bool) (res : List Position),
      (∀ q ∈ queue, f.isInBoundary q = true) →
      (∀ q, visited q = true ↔ q ∈ res) →
      (∀ q ∈ queue, InArea f o q) →
      (∀ q ∈ res, InArea f o q) →
      (∀ v, visited v = true → (f.cells v).isEmpty = true →
        ∀ s ∈ f.getSiblings v, visited s = true ∨ s ∈ queue) →
      (o ∈ res ∨ o ∈ queue) →
      9 * (f.allPositions.filter fun q => !visited q).length + queue.length ≤ fuel →
      ((∀ q ∈ f.revealBfs fuel queue visited res, InArea f o q) ∧
        (∀ q ∈ res, q ∈ f.revealBfs fuel queue visited res) ∧
        o ∈ f.revealBfs fuel queue visited res ∧
        (∀ v ∈ f.revealBfs fuel queue visited res, (f.cells v).isEmpty = true →
          ∀ s ∈ f.getSiblings v, s ∈ f.revealBfs fuel queue visited res)) := by
  intro fuel
  induction fuel with
  | zero =>
    intro queue visited res hqb hvr hqa hra hcl ho hfuel
    have hq : queue = [] := by
      cases queue with
      | nil => rfl
      | cons a l => simp at hfuel
    subst hq
    simp only [Field.revealBfs]
    exact bfs_done f o visited res hvr hra (fun v h1 h2 s hs => hcl v h1 h2 s hs) ho
  | succ fuel ih =>
    intro queue visited res hqb hvr hqa hra hcl ho hfuel
    cases queue with
    | nil =>
      simp only [Field.revealBfs]
      exact bfs_done f o visited res hvr hra (fun v h1 h2 s hs => hcl v h1 h2 s hs) ho
    | cons p rest =>
      by_cases hv : visited p = true
      · simp only [Field.revealBfs, hv, if_true]
        apply ih rest visited res
        · intro q hq
          exact hqb q (List.mem_cons_of_mem _ hq)
        · exact hvr
        · intro q hq
          exact hqa q (List.mem_cons_of_mem _ hq)
        · exact hra
        · intro v h1 h2 s hs
          rcases hcl v h1 h2 s hs with h | h
          · exact Or.inl h
          · rcases List.mem_cons.mp h with h | h
            · exact Or.inl (h ▸ hv)
            · exact Or.inr h
        · rcases ho with h | h
          · exact Or.inl h
          · rcases List.mem_cons.mp h with h | h
            · exact Or.inl ((hvr o).mp (h ▸ hv))
            · exact Or.inr h
        · simp only [List.length_cons] at hfuel
          omega
      · have hvp : visited p = false := by
          rw [Bool.not_eq_true] at hv
          exact hv
        have hpb : f.isInBoundary p = true := hqb p (List.mem_cons_self _ _)
        have hpa : InArea f o p := hqa p (List.mem_cons_self _ _)
        simp only [Field.revealBfs, hvp, Bool.false_eq_true, if_false]
        have hcount := length_filter_flip
          (fun q => !(if q = p then true else visited q)) (fun q => !visited q) p
          f.allPositions (nodup_allPositions f) (mem_allPositions.mpr hpb)
          (by simp)
          (fun x => by
            by_cases hxp : x = p
            · simp [hxp, hvp]
            · simp [hxp])
        set visited2 := fun q => if q = p then true else visited q with hvis2
        have hvr2 : ∀ q, visited2 q = true ↔ q ∈ p :: res := by
          intro q
          rw [hvis2]
          by_cases hqp : q = p
          · simp [hqp]
          · simp only [hqp, if_false, List.mem_cons, hqp, false_or]
            exact hvr q
        have hra2 : ∀ q ∈ p :: res, InArea f o q := by
          intro q hq
          rcases List.mem_cons.mp hq with h | h
          · exact h ▸ hpa
          · exact hra q h
        by_cases hemp : (f.cells p).isEmpty = true
        · simp only [hemp, if_true]
          refine (fun big => ⟨big.1, fun q hq => big.2.1 q (List.mem_cons_of_mem _ hq),
            big.2.2.1, big.2.2.2⟩)
            (ih (rest ++ f.getSiblings p) visited2 (p :: res) ?_ ?_ ?_ ?_ ?_ ?_ ?_)
          · intro q hq
            rcases List.mem_append.mp hq with h | h
            · exact hqb q (List.mem_cons_of_mem _ h)
            · exact getSiblings_inB h
          · exact hvr2
          · intro q hq
            rcases List.mem_append.mp hq with h | h
            · exact hqa q (List.mem_cons_of_mem _ h)
            · exact InArea.step p q hpa hemp h
          · exact hra2
          · intro v h1 h2 s hs
            by_cases hvp2 : v = p
            · exact Or.inr (List.mem_append.mpr (Or.inr (hvp2 ▸ hs)))
            · have h1b : visited v = true := by
                rw [hvis2] at h1
                simpa [hvp2] using h1
              rcases hcl v h1b h2 s hs with h | h
              · refine Or.inl ?_
                rw [hvis2]
                by_cases hsp : s = p
                · simp [hsp]
                · simp [hsp, h]
              · rcases List.mem_cons.mp h with h | h
                · refine Or.inl ?_
                  rw [hvis2, h]
                  simp
                · exact Or.inr (List.mem_append.mpr (Or.inl h))
          · rcases ho with h | h
            · exact Or.inl (List.mem_cons_of_mem _ h)
            · rcases List.mem_cons.mp h with h | h
              · exact Or.inl (h ▸ List.mem_cons_self _ _)
              · exact Or.inr (List.mem_append.mpr (Or.inl h))
          · have hlen : (rest ++ f.getSiblings p).length ≤ rest.length + 8 := by
              rw [List.length_append]
              have := length_getSiblings_le f p
              omega
            simp only [List.length_cons] at hfuel
            simp only [hvis2]
            omega
        · simp only [hemp, if_false]
          refine (fun big => ⟨big.1, fun q hq => big.2.1 q (List.mem_cons_of_mem _ hq),
            big.2.2.1, big.2.2.2⟩)
            (ih rest visited2 (p :: res) ?_ ?_ ?_ ?_ ?_ ?_ ?_)
          · intro q hq
            exact hqb q (List.mem_cons_of_mem _ hq)
          · exact hvr2
          · intro q hq
            exact hqa q (List.mem_cons_of_mem _ hq)
          · exact hra2
          · intro v h1 h2 s hs
            by_cases hvp2 : v = p
            · exact absurd (hvp2 ▸ h2) (by exact hemp)
            · have h1b : visited v = true := by
                rw [hvis2] at h1
                simpa [hvp2] using h1
              rcases hcl v h1b h2 s hs with h | h
              · refine Or.inl ?_
                rw [hvis2]
                by_cases hsp : s = p
                · simp [hsp]
                · simp [hsp, h]
              · rcases List.mem_cons.mp h with h | h
                · refine Or.inl ?_
                  rw [hvis2, h]
                  simp
                · exact Or.inr h
          · rcases ho with h | h
            · exact Or.inl (List.mem_cons_of_mem _ h)
            · rcases List.mem_cons.mp h with h | h
              · exact Or.inl (h ▸ List.mem_cons_self _ _)
              · exact Or.inr h
          · simp only [List.length_cons] at hfuel
            simp only [hvis2]
            omega

/- Consequences for getAreaToReveal. -/

theorem isEmpty_not_mine {c : Cell} (h : c.isEmpty = true) : c.isMine = false := by
  unfold Cell.isEmpty at h
  simp only [Bool.and_eq_true, Bool.not_eq_true'] at h
  exact h.1

theorem isEmpty_adj {c : Cell} (h : c.isEmpty = true) : c.adjacentMines = 0 := by
  unfold Cell.isEmpty at h
  simp only [Bool.and_eq_true, beq_iff_eq] at h
  exact h.2

theorem areaOf_singleton {f : Field} {o : Position} (h : (f.cells o).isEmpty = false) :
    f.areaOf o = [o] := by
  unfold Field.areaOf
  simp [h]

theorem areaOf_bfs {f : Field} {o : Position} (he : (f.cells o).isEmpty = true) :
    f.areaOf o = f.revealBfs f.bfsFuel [o] (fun _ => false) [] := by
  unfold Field.areaOf
  simp [he, isEmpty_not_mine he]

theorem areaOf_spec {f : Field} {o : Position} (ho : f.isInBoundary o = true)
    (he : (f.cells o).isEmpty = true) :
    ∀ q, q ∈ f.areaOf o ↔ InArea f o q := by
  obtain ⟨hsound, hsub, hoin, hclosed⟩ := revealBfs_spec f o f.bfsFuel [o] (fun _ => false) []
    (by
      intro q hq
      rcases List.mem_cons.mp hq with h | h
      · exact h ▸ ho
      · cases h)
    (by intro q; simp)
    (by
      intro q hq
      rcases List.mem_cons.mp hq with h | h
      · exact h ▸ InArea.base
      · cases h)
    (by intro q hq; cases hq)
    (by intro v hv; cases hv)
    (Or.inr (List.mem_cons_self _ _))
    (by
      have hlen := length_allPositions f
      simp only [List.filter_true, Bool.not_false, List.length_cons, List.length_nil,
        Field.bfsFuel]
      omega)
  rw [areaOf_bfs he]
  intro q
  constructor
  · exact hsound q
  · exact inArea_closed hoin hclosed q

theorem mem_areaOf_self {f : Field} {o : Position} (ho : f.isInBoundary o = true) :
    o ∈ f.areaOf o := by
  by_cases he : (f.cells o).isEmpty = true
  · exact (areaOf_spec ho he o).mpr InArea.base
  · rw [areaOf_singleton (by simpa using he)]
    exact List.mem_cons_self _ _

theorem mem_areaOf_inB {f : Field} {o q : Position} (ho : f.isInBoundary o = true)
    (hq : q ∈ f.areaOf o) : f.isInBoundary q = true := by
  by_cases he : (f.cells o).isEmpty = true
  · exact inArea_inB ho ((areaOf_spec ho he q).mp hq)
  · rw [areaOf_singleton (by simpa using he)] at hq
    rcases List.mem_cons.mp hq with h | h
    · exact h ▸ ho
    · cases h

theorem no_mined_sibling {f : Field} {p : Position} (hadj : AdjInvariant f)
    (hp : f.isInBoundary p = true) (hemp : (f.cells p).isEmpty = true) :
    ∀ s ∈ f.getSiblings p, (f.cells s).isMine = false := by
  intro s hs
  have h0 : (minedSiblingCount f p : Int) = 0 := by
    rw [← hadj p hp]
    exact isEmpty_adj hemp
  unfold minedSiblingCount at h0
  have hnil : (f.getSiblings p).filter (fun s => (f.cells s).isMine) = [] := by
    have : ((f.getSiblings p).filter fun s => (f.cells s).isMine).length = 0 := by omega
    exact List.length_eq_zero.mp this
  have := List.filter_eq_nil_iff.mp hnil s hs
  simpa using this

theorem areaOf_no_mine {f : Field} {o : Position} (hadj : AdjInvariant f)
    (ho : f.isInBoundary o = true) (hm : (f.cells o).isMine = false) :
    ∀ q ∈ f.areaOf o, (f.cells q).isMine = false := by
  intro q hq
  by_cases he : (f.cells o).isEmpty = true
  · rw [areaOf_spec ho he] at hq
    induction hq with
    | base => exact hm
    | step p q hp hemp hs ih =>
      exact no_mined_sibling hadj (inArea_inB ho hp) hemp q hs
  · rw [areaOf_singleton (by simpa using he)] at hq
    rcases List.mem_cons.mp hq with h | h
    · exact h ▸ hm
    · cases h

theorem bfsFuel_congr {f g : Field} (hp : g.params = f.params) : g.bfsFuel = f.bfsFuel := by
  unfold Field.bfsFuel
  rw [hp]

theorem revealBfs_congr {f g : Field} (hp : g.params = f.params)
    (hc : ∀ q, (g.cells q).isMine = (f.cells q).isMine ∧
      (g.cells q).adjacentMines = (f.cells q).adjacentMines) :
    ∀ fuel queue visited res,
      g.revealBfs fuel queue visited res = f.revealBfs fuel queue visited res := by
  have hsib : g.getSiblings = f.getSiblings := getSiblings_congr hp
  have hemp : ∀ q, (g.cells q).isEmpty = (f.cells q).isEmpty := by
    intro q
    unfold Cell.isEmpty
    rw [(hc q).1, (hc q).2]
  intro fuel
  induction fuel with
  | zero => intro queue visited res; rfl
  | succ n ih =>
    intro queue visited res
    cases queue with
    | nil => rfl
    | cons p rest =>
      simp only [Field.revealBfs, hemp p, hsib]
      by_cases hv : visited p = true
      · simp [hv, ih]
      · simp [hv, ih]

theorem areaOf_congr {f g : Field} (hp : g.params = f.params)
    (hc : ∀ q, (g.cells q).isMine = (f.cells q).isMine ∧
      (g.cells q).adjacentMines = (f.cells q).adjacentMines) (o : Position) :
    g.areaOf o = f.areaOf o := by
  have hemp : (g.cells o).isEmpty = (f.cells o).isEmpty := by
    unfold Cell.isEmpty
    rw [(hc o).1, (hc o).2]
  by_cases he : (f.cells o).isEmpty = true
  · rw [areaOf_bfs he, areaOf_bfs (hemp.trans he), bfsFuel_congr hp, revealBfs_congr hp hc]
  · have hf : (f.cells o).isEmpty = false := by simpa using he
    rw [areaOf_singleton hf, areaOf_singleton (hemp.trans hf)]

/- openArea: pointwise characterization of the revealed clone. -/

theorem foldl_pointwise_idem {σ : Type} (step : σ → Position → σ) (cellsOf : σ → Position → Cell)
    (u : Cell → Cell)
    (hstep : ∀ acc p q, cellsOf (step acc p) q = if q = p then u (cellsOf acc p) else cellsOf acc q)
    (hu : ∀ c, u (u c) = u c) (l : List Position) :
    ∀ (acc : σ) (q : Position),
      cellsOf (l.foldl step acc) q = if q ∈ l then u (cellsOf acc q) else cellsOf acc q := by
  induction l with
  | nil => intro acc q; simp
  | cons x xs ih =>
    intro acc q
    simp only [List.foldl_cons]
    rw [ih]
    by_cases hq : q ∈ xs
    · rw [if_pos hq, if_pos (List.mem_cons_of_mem _ hq), hstep]
      by_cases hqx : q = x
      · rw [if_pos hqx, hqx, hu]
      · rw [if_neg hqx]
    · rw [if_neg hq, hstep]
      by_cases hqx : q = x
      · rw [if_pos hqx, if_pos (by rw [hqx]; exact List.mem_cons_self x xs), hqx]
      · rw [if_neg hqx, if_neg (by simp [hqx, hq])]

theorem cell_open_flagged {c : Cell} (h : c.isRevealed = true) :
    { c with isFlagged := false } = { c with isFlagged := false, isRevealed := true } := by
  cases c with
  | mk m r fl a =>
    simp only at h
    rw [h]

theorem cell_open_unflagged {c : Cell} (hf : c.isFlagged = false) :
    { c with isRevealed := true } = { c with isFlagged := false, isRevealed := true } := by
  cases c with
  | mk m r fl a =>
    simp only at hf
    rw [hf]

theorem cell_open_noop {c : Cell} (hf : c.isFlagged = false) (hr : c.isRevealed = true) :
    c = { c with isFlagged := false, isRevealed := true } := by
  cases c with
  | mk m r fl a =>
    simp only at hf hr
    rw [hf, hr]

theorem cells_openAreaStep (acc : Field × List CellData × List CellData) (p q : Position) :
    ((openAreaStep acc p).1).cells q =
      if q = p then { acc.1.cells p with isFlagged := false, isRevealed := true }
      else acc.1.cells q := by
  unfold openAreaStep
  dsimp only
  by_cases h1 : (acc.1.cells p).isFlagged = true
  · simp only [h1, if_true, cells_setCell, if_pos rfl]
    by_cases h2 : (acc.1.cells p).isRevealed = true
    · simp only [h2, Bool.not_true, Bool.false_eq_true, if_false]
      by_cases hqp : q = p
      · simp [hqp, cells_setCell, ← cell_open_flagged h2]
      · simp [hqp, cells_setCell]
    · have h2f : (acc.1.cells p).isRevealed = false := by simpa using h2
      simp only [h2f, Bool.not_false, if_true, cells_setCell]
      by_cases hqp : q = p
      · simp [hqp, cells_setCell]
      · simp [hqp, cells_setCell]
  · have h1f : (acc.1.cells p).isFlagged = false := by simpa using h1
    simp only [h1f, Bool.false_eq_true, if_false]
    by_cases h2 : (acc.1.cells p).isRevealed = true
    · simp only [h2, Bool.not_true, Bool.false_eq_true, if_false]
      by_cases hqp : q = p
      · simp [hqp, ← cell_open_noop h1f h2]
      · simp [hqp]
    · have h2f : (acc.1.cells p).isRevealed = false := by simpa using h2
      simp only [h2f, Bool.not_false, if_true, cells_setCell]

theorem cells_openArea (f : Field) (pos q : Position) :
    ((openArea f pos).1).cells q =
      if q ∈ f.areaOf pos then { f.cells q with isFlagged := false, isRevealed := true }
      else f.cells q := by
  unfold openArea
  exact foldl_pointwise_idem openAreaStep (fun a => a.1.cells)
    (fun c => { c with isFlagged := false, isRevealed := true }) cells_openAreaStep
    (fun c => rfl) _ _ _

theorem params_openAreaStep (acc : Field × List CellData × List CellData) (p : Position) :
    ((openAreaStep acc p).1).params = acc.1.params := by
  unfold openAreaStep
  dsimp only
  by_cases h1 : (acc.1.cells p).isFlagged = true
  · simp only [h1, if_true, cells_setCell, if_pos rfl]
    by_cases h2 : (acc.1.cells p).isRevealed = true
    · simp only [h2, Bool.not_true, Bool.false_eq_true, if_false]
      rfl
    · have h2f : (acc.1.cells p).isRevealed = false := by simpa using h2
      simp only [h2f, Bool.not_false, if_true]
      rfl
  · have h1f : (acc.1.cells p).isFlagged = false := by simpa using h1
    simp only [h1f, Bool.false_eq_true, if_false]
    by_cases h2 : (acc.1.cells p).isRevealed = true
    · simp only [h2, Bool.not_true, Bool.false_eq_true, if_false]
    · have h2f : (acc.1.cells p).isRevealed = false := by simpa using h2
      simp only [h2f, Bool.not_false, if_true]
      rfl

theorem params_openArea (f : Field) (pos : Position) : ((openArea f pos).1).params = f.params := by
  unfold openArea
  exact foldl_inv (fun a : Field × List CellData × List CellData => a.1.params = f.params)
    openAreaStep _ (fun acc p _ h => by simpa [params_openAreaStep] using h) _ rfl

theorem minesAdj_openArea (f : Field) (pos q : Position) :
    (((openArea f pos).1).cells q).isMine = (f.cells q).isMine ∧
      (((openArea f pos).1).cells q).adjacentMines = (f.cells q).adjacentMines := by
  rw [cells_openArea]
  by_cases h : q ∈ f.areaOf pos
  · simp [h]
  · simp [h]

/- Equational reading of the engine actions. -/

theorem cells_cloneSelf (f : Field) : f.cloneSelf.cells = f.cells := rfl

theorem params_cloneSelf (f : Field) : f.cloneSelf.params = f.params := rfl

theorem getCell_some {f : Field} {p : Position} (h : f.isInBoundary p = true) :
    f.getCell p = some (f.cells p) := by
  unfold Field.getCell
  rw [if_pos h]

theorem getCell_none {f : Field} {p : Position} (h : ¬ f.isInBoundary p = true) :
    f.getCell p = none := by
  unfold Field.getCell
  rw [if_neg h]

theorem revealIdleStep_not_idle {e : Engine} {pos : Position} {f0 : Field}
    (h : ¬ e.status = GameStatus.idle) :
    revealIdleStep e pos f0 = some (f0, e.status) := by
  unfold revealIdleStep
  rw [if_neg h]

theorem revealIdleStep_idle_nonmine {e : Engine} {pos : Position} {f0 : Field}
    (hst : e.status = GameStatus.idle)
    (hsd : f0.isMined = true ∨ ¬ 0 < f0.params.mines)
    (hb : f0.isInBoundary pos = true) (hm : (f0.cells pos).isMine = false) :
    revealIdleStep e pos f0 = some ({ f0 with isMined := true }, GameStatus.playing) := by
  unfold revealIdleStep
  rw [if_pos hst]
  by_cases hmined : f0.isMined = true
  · have hfeq : f0 = { f0 with isMined := true } := by
      cases f0 with
      | mk params cells isMined rng =>
        simp only at hmined
        rw [hmined]
    simp only [hmined, Bool.not_true, Bool.false_eq_true, if_false]
    simp [Field.getCellData, getCell_some hb, hm]
    rw [← hfeq]
  · have hmf : f0.isMined = false := by simpa using hmined
    rw [hmf]
    simp only [Bool.not_false, if_true, placeMines_seeded hsd, Option.some_bind]
    have hb2 : Field.isInBoundary { f0 with isMined := true } pos = true := hb
    have hget : Field.getCell { f0 with isMined := true } pos =
        some (Field.cells { f0 with isMined := true } pos) := getCell_some hb2
    simp [Field.getCellData, hget, hm]

theorem revealIdleStep_idle_mine {e : Engine} {pos : Position} {f0 : Field} {u : Position}
    (hst : e.status = GameStatus.idle)
    (hsd : f0.isMined = true ∨ ¬ 0 < f0.params.mines)
    (hb : f0.isInBoundary pos = true) (hm : (f0.cells pos).isMine = true)
    (hfind : f0.findUnmined = some u) :
    revealIdleStep e pos f0 =
      some (Field.relocateMine { f0 with isMined := true } pos u, GameStatus.playing) := by
  unfold revealIdleStep
  rw [if_pos hst]
  have hfind2 : Field.findUnmined { f0 with isMined := true } = some u := hfind
  by_cases hmined : f0.isMined = true
  · have hfeq : f0 = { f0 with isMined := true } := by
      cases f0 with
      | mk params cells isMined rng =>
        simp only at hmined
        rw [hmined]
    simp only [hmined, Bool.not_true, Bool.false_eq_true, if_false]
    simp [Field.getCellData, getCell_some hb, hm, hfind]
    rw [← hfeq]
  · have hmf : f0.isMined = false := by simpa using hmined
    rw [hmf]
    simp only [Bool.not_false, if_true, placeMines_seeded hsd, Option.some_bind]
    have hb2 : Field.isInBoundary { f0 with isMined := true } pos = true := hb
    have hget : Field.getCell { f0 with isMined := true } pos =
        some (Field.cells { f0 with isMined := true } pos) := getCell_some hb2
    simp [Field.getCellData, hget, hm, hfind2]

theorem revealCell_eq {e : Engine} {pos : Position} {f1 : Field} {st1 : GameStatus}
    (hstep : revealIdleStep e pos e.field.cloneSelf = some (f1, st1))
    (hb : f1.isInBoundary pos = true) :
    e.revealCell pos = some (mkRevealResult e pos (revealMain f1 pos st1 (f1.cells pos))) := by
  unfold Engine.revealCell
  rw [hstep]
  simp [Option.bind, getCell_some hb]

theorem revealCell_oob {e : Engine} {pos : Position} {f1 : Field} {st1 : GameStatus}
    (hstep : revealIdleStep e pos e.field.cloneSelf = some (f1, st1))
    (hb : ¬ f1.isInBoundary pos = true) :
    e.revealCell pos = none := by
  unfold Engine.revealCell
  rw [hstep]
  simp [Option.bind, getCell_none hb]

theorem toggleFlag_eq {e : Engine} {pos : Position}
    (hb : e.field.isInBoundary pos = true) :
    e.toggleFlag pos = some (mkToggleResult e pos e.field.cloneSelf (e.field.cells pos)) := by
  unfold Engine.toggleFlag
  have hb2 : e.field.cloneSelf.isInBoundary pos = true := hb
  simp [Option.bind, getCell_some hb2, cells_cloneSelf]

theorem toggleFlag_oob {e : Engine} {pos : Position}
    (hb : ¬ e.field.isInBoundary pos = true) :
    e.toggleFlag pos = none := by
  unfold Engine.toggleFlag
  have hb2 : ¬ e.field.cloneSelf.isInBoundary pos = true := hb
  simp [Option.bind, getCell_none hb2]

/- Snapshot lemmas. -/

theorem getState_congr {f g : Field} (hp : g.params = f.params)
    (hc : ∀ q, f.isInBoundary q = true → g.cells q = f.cells q) :
    g.getState = f.getState := by
  unfold Field.getState
  have hdata : g.allPositions.map (fun p => CellData.mk p (g.cells p)) =
      f.allPositions.map (fun p => CellData.mk p (f.cells p)) := by
    rw [allPositions_congr hp]
    apply List.map_congr_left
    intro p hp2
    rw [hc p (mem_allPositions.mp hp2)]
  simp only [hdata]

theorem explodedCells_eq_nil {f : Field} :
    (f.getState).explodedCells = [] ↔
      (∀ q, f.isInBoundary q = true → (f.cells q).isExploded = false) := by
  unfold Field.getState
  simp only [List.filter_eq_nil_iff, List.mem_map]
  constructor
  · intro h q hb
    have := h (CellData.mk q (f.cells q)) ⟨q, mem_allPositions.mpr hb, rfl⟩
    simpa using this
  · rintro h cd ⟨p, hp, rfl⟩
    simp [h p (mem_allPositions.mp hp)]

/- Remaining small lemmas for the claims. -/

theorem isRevealed_unMineCell (f : Field) (p q : Position) :
    ((f.unMineCell p).cells q).isRevealed = (f.cells q).isRevealed := by
  rw [cells_unMineCell]
  by_cases hqp : q = p
  · simp [hqp]
  · by_cases hqs : q ∈ f.getSiblings p <;> simp [hqp, hqs]

theorem isFlagged_unMineCell (f : Field) (p q : Position) :
    ((f.unMineCell p).cells q).isFlagged = (f.cells q).isFlagged := by
  rw [cells_unMineCell]
  by_cases hqp : q = p
  · simp [hqp]
  · by_cases hqs : q ∈ f.getSiblings p <;> simp [hqp, hqs]

theorem isMine_relocateMine (f : Field) (a b q : Position) :
    ((f.relocateMine a b).cells q).isMine =
      (if q = b then true else if q = a then false else (f.cells q).isMine) := by
  unfold Field.relocateMine
  rw [isMine_mineCell, isMine_unMineCell]

theorem isRevealed_relocateMine (f : Field) (a b q : Position) :
    ((f.relocateMine a b).cells q).isRevealed = (f.cells q).isRevealed := by
  unfold Field.relocateMine
  rw [isRevealed_mineCell, isRevealed_unMineCell]

theorem isFlagged_relocateMine (f : Field) (a b q : Position) :
    ((f.relocateMine a b).cells q).isFlagged = (f.cells q).isFlagged := by
  unfold Field.relocateMine
  rw [isFlagged_mineCell, isFlagged_unMineCell]

theorem adjInvariant_blank (params : GameParams) (rng : List Position) :
    AdjInvariant (blankField params rng) := by
  intro p hp
  unfold minedSiblingCount
  have : ((blankField params rng).getSiblings p).filter
      (fun s => ((blankField params rng).cells s).isMine) = [] := by
    apply List.filter_eq_nil_iff.mpr
    intro a _
    simp [blankField, fieldOfCells, blankCell]
  rw [this]
  simp [blankField, fieldOfCells, blankCell]

theorem minedCount_blank (params : GameParams) (rng : List Position) :
    minedCount (blankField params rng) = 0 := by
  unfold minedCount
  have : ((blankField params rng).allPositions).filter
      (fun p => ((blankField params rng).cells p).isMine) = [] := by
    apply List.filter_eq_nil_iff.mpr
    intro a _
    simp [blankField, fieldOfCells, blankCell]
  rw [this]
  rfl

theorem findUnmined_exists {f : Field} (h : minedCount f < f.allPositions.length) :
    ∃ u, f.findUnmined = some u ∧ (f.cells u).isMine = false ∧
      f.isInBoundary u = true := by
  unfold Field.findUnmined
  cases hfind : f.allPositions.find? (fun p => !(f.cells p).isMine) with
  | none =>
    exfalso
    have hall : ∀ p ∈ f.allPositions, (f.cells p).isMine = true := by
      intro p hp
      have := List.find?_eq_none.mp hfind p hp
      simpa using this
    have : (f.allPositions.filter fun p => (f.cells p).isMine) = f.allPositions := by
      apply List.filter_eq_self.mpr
      intro a ha
      exact hall a ha
    unfold minedCount at h
    rw [this] at h
    omega
  | some u =>
    have hmem := List.mem_of_find?_eq_some hfind
    have hprop := List.find?_some hfind
    exact ⟨u, rfl, by simpa using hprop, mem_allPositions.mp hmem⟩

theorem determineStatus_ne_lost {e : Engine} {rs : FieldState}
    (h : rs.explodedCells = []) : ¬ e.determineStatus rs = GameStatus.lost := by
  unfold Engine.determineStatus
  rw [h]
  simp only [List.length_nil, lt_irrefl, if_false]
  by_cases h2 : (rs.revealedCells.length : Int) = e.params.cols * e.params.rows - e.params.mines
  · simp [h2]
  · simp [h2]

theorem determineStatus_iff (e : Engine) (rs : FieldState) :
    (e.determineStatus rs = GameStatus.lost ↔ rs.explodedCells ≠ []) ∧
    (e.determineStatus rs = GameStatus.won ↔ (rs.explodedCells = [] ∧
      (rs.revealedCells.length : Int) = e.params.cols * e.params.rows - e.params.mines)) ∧
    (e.determineStatus rs = GameStatus.playing ↔ (rs.explodedCells = [] ∧
      (rs.revealedCells.length : Int) ≠ e.params.cols * e.params.rows - e.params.mines)) := by
  unfold Engine.determineStatus
  by_cases h1 : 0 < rs.explodedCells.length
  · have hne : rs.explodedCells ≠ [] := by
      intro hc
      rw [hc] at h1
      simp at h1
    simp [h1, hne]
  · have heq : rs.explodedCells = [] := by
      cases hc : rs.explodedCells with
      | nil => rfl
      | cons a l =>
        rw [hc] at h1
        simp at h1
    by_cases h2 : (rs.revealedCells.length : Int) = e.params.cols * e.params.rows - e.params.mines
    · simp [h1, h2, heq]
    · simp [h1, h2, heq]

theorem revealCell_inv {e : Engine} {pos : Position} {r : ActionResult}
    (h : e.revealCell pos = some r) :
    ∃ f1 st1, revealIdleStep e pos e.field.cloneSelf = some (f1, st1) ∧
      f1.isInBoundary pos = true ∧
      r = mkRevealResult e pos (revealMain f1 pos st1 (f1.cells pos)) := by
  unfold Engine.revealCell at h
  cases hstep : revealIdleStep e pos e.field.cloneSelf with
  | none =>
    rw [hstep] at h
    cases h
  | some s1 =>
    obtain ⟨f1, st1⟩ := s1
    rw [hstep] at h
    by_cases hb : f1.isInBoundary pos = true
    · refine ⟨f1, st1, rfl, hb, ?_⟩
      simp only [Option.bind_eq_bind, Option.some_bind, getCell_some hb] at h
      exact (Option.some_inj.mp h).symm
    · simp only [Option.bind_eq_bind, Option.some_bind, getCell_none hb,
        Option.none_bind] at h
      cases h

theorem toggleFlag_inv {e : Engine} {pos : Position} {r : ActionResult}
    (h : e.toggleFlag pos = some r) :
    e.field.isInBoundary pos = true ∧
      r = mkToggleResult e pos e.field.cloneSelf (e.field.cells pos) := by
  by_cases hb : e.field.isInBoundary pos = true
  · rw [toggleFlag_eq hb] at h
    exact ⟨hb, (Option.some_inj.mp h).symm⟩
  · rw [toggleFlag_oob hb] at h
    cases h

theorem revealIdleStep_idle_mine_none {e : Engine} {pos : Position} {f0 : Field}
    (hst : e.status = GameStatus.idle)
    (hsd : f0.isMined = true ∨ ¬ 0 < f0.params.mines)
    (hb : f0.isInBoundary pos = true) (hm : (f0.cells pos).isMine = true)
    (hfu : f0.findUnmined = none) :
    revealIdleStep e pos f0 = some ({ f0 with isMined := true }, GameStatus.lost) := by
  unfold revealIdleStep
  rw [if_pos hst]
  have hfu2 : Field.findUnmined { f0 with isMined := true } = none := hfu
  by_cases hmined : f0.isMined = true
  · have hfeq : f0 = { f0 with isMined := true } := by
      cases f0 with
      | mk params cells isMined rng =>
        simp only at hmined
        rw [hmined]
    simp only [hmined, Bool.not_true, Bool.false_eq_true, if_false]
    simp [Field.getCellData, getCell_some hb, hm, hfu]
    rw [← hfeq]
  · have hmf : f0.isMined = false := by simpa using hmined
    rw [hmf]
    simp only [Bool.not_false, if_true, placeMines_seeded hsd, Option.some_bind]
    have hb2 : Field.isInBoundary { f0 with isMined := true } pos = true := hb
    have hget : Field.getCell { f0 with isMined := true } pos =
        some (Field.cells { f0 with isMined := true } pos) := getCell_some hb2
    simp [Field.getCellData, hget, hm, hfu2]

theorem revealIdleStep_some {e : Engine} {pos : Position} (hseed : Engine.seeded e)
    (hb : e.field.isInBoundary pos = true) :
    ∃ f1 st1, revealIdleStep e pos e.field.cloneSelf = some (f1, st1) ∧
      f1.params = e.field.params ∧ f1.isInBoundary pos = true := by
  have hsd : e.field.cloneSelf.isMined = true ∨ ¬ 0 < e.field.cloneSelf.params.mines := hseed
  have hb0 : e.field.cloneSelf.isInBoundary pos = true := hb
  by_cases hst : e.status = GameStatus.idle
  · by_cases hm : (e.field.cloneSelf.cells pos).isMine = true
    · cases hfu : e.field.cloneSelf.findUnmined with
      | none =>
        exact ⟨_, _, revealIdleStep_idle_mine_none hst hsd hb0 hm hfu, rfl, hb⟩
      | some u =>
        refine ⟨_, _, revealIdleStep_idle_mine hst hsd hb0 hm hfu, ?_, ?_⟩
        · rw [params_relocateMine]
          rfl
        · have hpeq : (Field.relocateMine { e.field.cloneSelf with isMined := true } pos
              u).params = e.field.params := by
            rw [params_relocateMine]
            rfl
          rw [isInBoundary_congr (f := e.field) hpeq]
          exact hb
    · have hmf : (e.field.cloneSelf.cells pos).isMine = false := by simpa using hm
      exact ⟨_, _, revealIdleStep_idle_nonmine hst hsd hb0 hmf, rfl, hb⟩
  · exact ⟨_, _, revealIdleStep_not_idle hst, rfl, hb⟩

theorem revealIdleStep_oob {e : Engine} {pos : Position} (hseed : Engine.seeded e)
    (hst : e.status = GameStatus.idle) (hb : ¬ e.field.isInBoundary pos = true) :
    revealIdleStep e pos e.field.cloneSelf = none := by
  have hsd : e.field.cloneSelf.isMined = true ∨ ¬ 0 < e.field.cloneSelf.params.mines := hseed
  unfold revealIdleStep
  rw [if_pos hst]
  by_cases hmined : e.field.cloneSelf.isMined = true
  · have hb2 : ¬ Field.isInBoundary e.field.cloneSelf pos = true := hb
    simp [hmined, Field.getCellData, getCell_none hb2]
  · have hmf : e.field.cloneSelf.isMined = false := by simpa using hmined
    rw [hmf]
    have hb2 : ¬ Field.isInBoundary { e.field.cloneSelf with isMined := true } pos = true := hb
    simp [placeMines_seeded hsd, Field.getCellData, getCell_none hb2]

theorem revealCell_isSome {e : Engine} {pos : Position} (hseed : Engine.seeded e)
    (hb : e.field.isInBoundary pos = true) : (e.revealCell pos).isSome = true := by
  obtain ⟨f1, st1, hstep, hp, hb1⟩ := revealIdleStep_some hseed hb
  rw [revealCell_eq hstep hb1]
  rfl

theorem revealCell_none_oob {e : Engine} {pos : Position} (hseed : Engine.seeded e)
    (hb : ¬ e.field.isInBoundary pos = true) : e.revealCell pos = none := by
  by_cases hst : e.status = GameStatus.idle
  · unfold Engine.revealCell
    rw [revealIdleStep_oob hseed hst hb]
    rfl
  · exact revealCell_oob (revealIdleStep_not_idle hst) hb

/-- C2: after every revealCell action the returned status is re-derived from
the resulting snapshot: Lost exactly when an exploded cell exists, Won
exactly when none exists and the revealed-cell count equals
cols * rows - mines, Playing otherwise; and on the fresh 1 x 1 board with
zero mines, the first reveal of (0, 0) yields Won. -/
theorem revealCell_win_loss_determination :
    (∀ (e : Engine) (pos : Position) (r : ActionResult), e.revealCell pos = some r →
      ((r.actionSnapshot.status = GameStatus.lost ↔
          r.actionSnapshot.state.explodedCells ≠ []) ∧
        (r.actionSnapshot.status = GameStatus.won ↔
          (r.actionSnapshot.state.explodedCells = [] ∧
            (r.actionSnapshot.state.revealedCells.length : Int) =
              e.params.cols * e.params.rows - e.params.mines)) ∧
        (r.actionSnapshot.status = GameStatus.playing ↔
          (r.actionSnapshot.state.explodedCells = [] ∧
            (r.actionSnapshot.state.revealedCells.length : Int) ≠
              e.params.cols * e.params.rows - e.params.mines)))) ∧
    ((engineA.revealCell ⟨0, 0⟩).map fun r => r.actionSnapshot.status) =
      some GameStatus.won := by
  constructor
  · intro e pos r h
    obtain ⟨f1, st1, hstep, hb, hr⟩ := revealCell_inv h
    subst hr
    exact determineStatus_iff e _
  · decide

theorem revealCell_win_loss_determination_witness :
    ((engineA.revealCell ⟨0, 0⟩).getD defaultResult).actionSnapshot.status =
        GameStatus.lost ↔
      ((engineA.revealCell ⟨0, 0⟩).getD defaultResult).actionSnapshot.state.explodedCells ≠
        [] :=
  (revealCell_win_loss_determination.1 engineA ⟨0, 0⟩
    ((engineA.revealCell ⟨0, 0⟩).getD defaultResult) rfl).1

/-- C5: the preview methods leave the live engine (and hence its
gameSnapshot) unchanged; the commit closure replaces field, status and
flagsRemaining together with the precomputed values, after which the
live gameSnapshot coincides with the previewed actionSnapshot. -/
theorem transactional_isolation :
    ∀ (e : Engine) (pos : Position),
      ((e.revealCellCall pos).2.gameSnapshot = e.gameSnapshot ∧
        (e.toggleFlagCall pos).2.gameSnapshot = e.gameSnapshot) ∧
      (∀ r : ActionResult, (e.revealCellCall pos).1 = some r →
        e.applyResult r =
          { e with
              field := r.applyField
              status := r.applyStatus
              flagsRemaining := r.applyFlags } ∧
        (e.applyResult r).gameSnapshot = r.actionSnapshot) ∧
      (∀ r : ActionResult, (e.toggleFlagCall pos).1 = some r →
        e.applyResult r =
          { e with
              field := r.applyField
              status := r.applyStatus
              flagsRemaining := r.applyFlags } ∧
        (e.applyResult r).gameSnapshot = r.actionSnapshot) := by
  intro e pos
  refine ⟨⟨rfl, rfl⟩, ?_, ?_⟩
  · intro r h
    obtain ⟨f1, st1, hstep, hb, hr⟩ := revealCell_inv h
    subst hr
    exact ⟨rfl, rfl⟩
  · intro r h
    obtain ⟨hb, hr⟩ := toggleFlag_inv h
    subst hr
    exact ⟨rfl, rfl⟩

theorem transactional_isolation_witness :
    (engineA.revealCellCall ⟨0, 0⟩).2.gameSnapshot = engineA.gameSnapshot ∧
      engineA.applyResult ((engineA.revealCell ⟨0, 0⟩).getD defaultResult) =
        { engineA with
            field := ((engineA.revealCell ⟨0, 0⟩).getD defaultResult).applyField
            status := ((engineA.revealCell ⟨0, 0⟩).getD defaultResult).applyStatus
            flagsRemaining := ((engineA.revealCell ⟨0, 0⟩).getD defaultResult).applyFlags } :=
  ⟨(transactional_isolation engineA ⟨0, 0⟩).1.1,
    ((transactional_isolation engineA ⟨0, 0⟩).2.1
      ((engineA.revealCell ⟨0, 0⟩).getD defaultResult) rfl).1⟩

/-- C10: for a constructed (seeded) engine and an in-bounds position every
public operation succeeds (every embedded grid access is in bounds), the
sibling computation only ever produces in-bounds cells, and for an
out-of-bounds position the operations fault (none) because no bounds
check guards the position argument at the public interface. -/
theorem grid_access_bounds_safety :
    (∀ (e : Engine) (p : Position), Engine.seeded e →
      (e.field.isInBoundary p = true →
        (e.revealCell p).isSome = true ∧ (e.toggleFlag p).isSome = true) ∧
      (e.field.isInBoundary p = false →
        e.revealCell p = none ∧ e.toggleFlag p = none)) ∧
    (∀ (f : Field) (p : Position),
      (f.isInBoundary p = true →
        (f.getCell p).isSome = true ∧ (f.getAreaToReveal p).isSome = true) ∧
      (f.isInBoundary p = false →
        f.getCell p = none ∧ f.getAreaToReveal p = none) ∧
      (∀ s ∈ f.getSiblings p, f.isInBoundary s = true)) := by
  constructor
  · intro e p hseed
    constructor
    · intro hb
      refine ⟨revealCell_isSome hseed hb, ?_⟩
      rw [toggleFlag_eq hb]
      rfl
    · intro hb
      have hb2 : ¬ e.field.isInBoundary p = true := by rw [hb]; simp
      exact ⟨revealCell_none_oob hseed hb2, toggleFlag_oob hb2⟩
  · intro f p
    refine ⟨?_, ?_, fun s hs => getSiblings_inB hs⟩
    · intro hb
      constructor
      · rw [getCell_some hb]
        rfl
      · unfold Field.getAreaToReveal
        rw [getCell_some hb]
        rfl
    · intro hb
      have hb2 : ¬ f.isInBoundary p = true := by rw [hb]; simp
      constructor
      · exact getCell_none hb2
      · unfold Field.getAreaToReveal
        rw [getCell_none hb2]
        rfl

theorem grid_access_bounds_safety_witness :
    (engineB.revealCell ⟨0, 0⟩).isSome = true ∧ (engineB.toggleFlag ⟨0, 0⟩).isSome = true ∧
      engineB.revealCell ⟨5, 0⟩ = none ∧ engineB.toggleFlag ⟨5, 0⟩ = none :=
  ⟨((grid_access_bounds_safety.1 engineB ⟨0, 0⟩ (Or.inl (by decide))).1 (by decide)).1,
    ((grid_access_bounds_safety.1 engineB ⟨0, 0⟩ (Or.inl (by decide))).1 (by decide)).2,
    ((grid_access_bounds_safety.1 engineB ⟨5, 0⟩ (Or.inl (by decide))).2 (by decide)).1,
    ((grid_access_bounds_safety.1 engineB ⟨5, 0⟩ (Or.inl (by decide))).2 (by decide)).2⟩

/- No-op branches of the reveal and toggle actions. -/

theorem getState_cloneSelf (f : Field) : f.cloneSelf.getState = f.getState := rfl

theorem getState_markMined (f : Field) :
    Field.getState { f with isMined := true } = f.getState := rfl

theorem revealMain_noop {f1 : Field} {pos : Position} {st : GameStatus} {target : Cell}
    (h : ¬ st = GameStatus.playing ∨ target.isFlagged = true) :
    revealMain f1 pos st target = (f1, emptyLists) := by
  unfold revealMain
  rcases h with h | h
  · simp [h]
  · simp [h]

theorem handleRevealedClick_mismatch {f1 : Field} {pos : Position}
    (h : ¬ (((f1.getSiblings pos).filter fun s => (f1.cells s).isFlagged).length : Int) =
      (f1.cells pos).adjacentMines) :
    handleRevealedClick f1 pos = (f1, emptyLists) := by
  unfold handleRevealedClick
  rw [if_neg h]

theorem toggle_noop_components {e : Engine} {pos : Position} {operated : Field} {cell : Cell}
    (h : (¬ e.status = GameStatus.playing) ∨ cell.isRevealed = true ∨
      (cell.isFlagged = false ∧ ¬ 0 < e.flagsRemaining)) :
    (mkToggleResult e pos operated cell).actionChanges.flaggedCells = [] ∧
      (mkToggleResult e pos operated cell).actionChanges.unflaggedCells = [] ∧
      (mkToggleResult e pos operated cell).actionSnapshot.state = operated.getState := by
  unfold mkToggleResult
  rcases h with h | h | ⟨h1, h2⟩
  · simp [h]
  · simp [h]
  · by_cases hr : cell.isRevealed = true
    · simp [hr]
    · simp [hr, h1, h2]

/-- C6 (amended): reveal on a flagged cell (except when the engine is
still Idle and the target is a mine, where the first-move relocation
still changes cells), chording with a mismatched flag count, flagging
with no flags remaining, flagging a revealed cell, and any action in a
terminal state, are silent no-ops: the action succeeds, the four delta
lists are empty and the previewed per-cell state equals the live one. -/
theorem illegal_actions_silent_noop :
    ∀ (e : Engine) (pos : Position), Engine.seeded e → e.field.isInBoundary pos = true →
      ((e.field.cells pos).isFlagged = true →
        (¬ e.status = GameStatus.idle ∨ (e.field.cells pos).isMine = false) →
        ∃ r, e.revealCell pos = some r ∧ UnchangedNoop e r) ∧
      (e.status = GameStatus.playing → (e.field.cells pos).isRevealed = true →
        (e.field.cells pos).isFlagged = false → (e.field.cells pos).isMine = false →
        ¬ (((e.field.getSiblings pos).filter fun s =>
              (e.field.cells s).isFlagged).length : Int) =
            (e.field.cells pos).adjacentMines →
        ∃ r, e.revealCell pos = some r ∧ UnchangedNoop e r) ∧
      (e.status = GameStatus.playing → (e.field.cells pos).isRevealed = false →
        (e.field.cells pos).isFlagged = false → ¬ 0 < e.flagsRemaining →
        ∃ r, e.toggleFlag pos = some r ∧ UnchangedNoop e r) ∧
      (e.status = GameStatus.playing → (e.field.cells pos).isRevealed = true →
        ∃ r, e.toggleFlag pos = some r ∧ UnchangedNoop e r) ∧
      ((e.status = GameStatus.won ∨ e.status = GameStatus.lost) →
        (∃ r, e.revealCell pos = some r ∧ UnchangedNoop e r) ∧
        (∃ r, e.toggleFlag pos = some r ∧ UnchangedNoop e r)) := by
  intro e pos hseed hb
  have hsd : e.field.cloneSelf.isMined = true ∨ ¬ 0 < e.field.cloneSelf.params.mines := hseed
  have hb0 : e.field.cloneSelf.isInBoundary pos = true := hb
  refine ⟨?_, ?_, ?_, ?_, ?_⟩
  · intro hfl hcase
    by_cases hst : e.status = GameStatus.idle
    · rcases hcase with hcase | hcase
      · exact absurd hst hcase
      · have hm : (e.field.cloneSelf.cells pos).isMine = false := hcase
        refine ⟨_, revealCell_eq (revealIdleStep_idle_nonmine hst hsd hb0 hm) hb, ?_⟩
        rw [show revealMain { e.field.cloneSelf with isMined := true } pos GameStatus.playing
            (Field.cells { e.field.cloneSelf with isMined := true } pos) =
            ({ e.field.cloneSelf with isMined := true }, emptyLists) from
          revealMain_noop (Or.inr hfl)]
        exact ⟨rfl, rfl, rfl, rfl, getState_markMined _⟩
    · refine ⟨_, revealCell_eq (revealIdleStep_not_idle hst) hb, ?_⟩
      by_cases hpl : e.status = GameStatus.playing
      · rw [revealMain_noop (Or.inr (show (e.field.cloneSelf.cells pos).isFlagged = true
          from hfl))]
        exact ⟨rfl, rfl, rfl, rfl, getState_cloneSelf _⟩
      · rw [revealMain_noop (Or.inl hpl)]
        exact ⟨rfl, rfl, rfl, rfl, getState_cloneSelf _⟩
  · intro hpl hrev hfl hm hflags
    have hst : ¬ e.status = GameStatus.idle := by rw [hpl]; decide
    refine ⟨_, revealCell_eq (revealIdleStep_not_idle hst) hb, ?_⟩
    have hmain : revealMain e.field.cloneSelf pos e.status
        (e.field.cloneSelf.cells pos) = (e.field.cloneSelf, emptyLists) := by
      unfold revealMain
      rw [hpl]
      have hfl2 : (e.field.cloneSelf.cells pos).isFlagged = false := hfl
      have hm2 : (e.field.cloneSelf.cells pos).isMine = false := hm
      have hrev2 : (e.field.cloneSelf.cells pos).isRevealed = true := hrev
      simp only [hfl2, hm2, hrev2, Bool.not_false]
      simp only [decide_True, Bool.true_and, if_true, Bool.false_eq_true, if_false]
      exact handleRevealedClick_mismatch hflags
    rw [hmain]
    exact ⟨rfl, rfl, rfl, rfl, getState_cloneSelf _⟩
  · intro hpl hrev hfl hrem
    refine ⟨_, toggleFlag_eq hb, ?_⟩
    obtain ⟨h1, h2, h3⟩ := @toggle_noop_components e pos e.field.cloneSelf
      (e.field.cells pos) (Or.inr (Or.inr ⟨hfl, hrem⟩))
    exact ⟨rfl, h1, h2, rfl, h3⟩
  · intro hpl hrev
    refine ⟨_, toggleFlag_eq hb, ?_⟩
    obtain ⟨h1, h2, h3⟩ := @toggle_noop_components e pos e.field.cloneSelf
      (e.field.cells pos) (Or.inr (Or.inl hrev))
    exact ⟨rfl, h1, h2, rfl, h3⟩
  · intro hterm
    have hst : ¬ e.status = GameStatus.idle := by
      rcases hterm with h | h <;> rw [h] <;> decide
    have hpl : ¬ e.status = GameStatus.playing := by
      rcases hterm with h | h <;> rw [h] <;> decide
    constructor
    · refine ⟨_, revealCell_eq (revealIdleStep_not_idle hst) hb, ?_⟩
      rw [revealMain_noop (Or.inl hpl)]
      exact ⟨rfl, rfl, rfl, rfl, getState_cloneSelf _⟩
    · refine ⟨_, toggleFlag_eq hb, ?_⟩
      obtain ⟨h1, h2, h3⟩ := @toggle_noop_components e pos e.field.cloneSelf
        (e.field.cells pos) (Or.inl hpl)
      exact ⟨rfl, h1, h2, rfl, h3⟩

theorem illegal_actions_silent_noop_witness :
    ∃ r, engineD.revealCell ⟨0, 1⟩ = some r ∧ UnchangedNoop engineD r :=
  (illegal_actions_silent_noop engineD ⟨0, 1⟩ (Or.inl (by decide)) (by decide)).1
    (by decide) (Or.inr (by decide))

/-- C6 (counterexample to the claim as stated): on a freshly restored
1 x 2 board whose saved grid has a flagged mine at (0, 0), the engine is
Idle again, and revealing the flagged cell yields an empty delta but a
changed per-cell state: the first-move relocation moves the mine. -/
theorem illegal_actions_cex :
    engineC6.status = GameStatus.idle ∧
      (engineC6.field.cells ⟨0, 0⟩).isFlagged = true ∧
      (engineC6.field.cells ⟨0, 0⟩).isMine = true ∧
      engineC6.revealCell ⟨0, 0⟩ = some resultC6 ∧
      resultC6.actionChanges.revealedCells = [] ∧
      resultC6.actionChanges.flaggedCells = [] ∧
      resultC6.actionChanges.unflaggedCells = [] ∧
      resultC6.actionChanges.explodedCells = [] ∧
      ¬ resultC6.actionSnapshot.state = engineC6.field.getState :=
  ⟨by decide, by decide, by decide, rfl, by decide, by decide, by decide, by decide,
    by decide⟩

/- Fresh construction and the first-move safety argument. -/

theorem blank_isMined (params : GameParams) (rng : List Position) :
    (blankField params rng).isMined = false := by
  unfold blankField fieldOfCells
  simp [blankCell]

theorem minedCount_pos_any {f : Field} (h : 0 < minedCount f) :
    (f.allPositions.any fun p => (f.cells p).isMine) = true := by
  unfold minedCount at h
  rw [List.any_eq_true]
  cases hfil : f.allPositions.filter (fun p => (f.cells p).isMine) with
  | nil =>
    rw [hfil] at h
    simp at h
  | cons a l =>
    have ha : a ∈ f.allPositions.filter (fun p => (f.cells p).isMine) := by
      rw [hfil]
      exact List.mem_cons_self _ _
    obtain ⟨hmem, hmine⟩ := List.mem_filter.mp ha
    exact ⟨a, hmem, hmine⟩

theorem placeMinesGo_done {mines count : Int} (h : ¬ count < mines)
    (f : Field) (avoid : List Position) (draws : List Position) :
    placeMinesGo mines f avoid count draws = some f := by
  cases draws with
  | nil => simp [placeMinesGo, h]
  | cons a l => simp [placeMinesGo, h]

theorem minedCount_pos_of_mine {f : Field} {p : Position} (hb : f.isInBoundary p = true)
    (hm : (f.cells p).isMine = true) : 0 < minedCount f := by
  unfold minedCount
  have hmem : p ∈ f.allPositions.filter fun q => (f.cells q).isMine :=
    List.mem_filter.mpr ⟨mem_allPositions.mpr hb, hm⟩
  cases hfil : f.allPositions.filter (fun q => (f.cells q).isMine) with
  | nil =>
    rw [hfil] at hmem
    cases hmem
  | cons a l =>
    simp

theorem mkEngine_spec {params : GameParams} {draws : List Position} {e : Engine}
    (h : mkEngine params draws = some e)
    (hd : ∀ d ∈ draws, (blankField params draws).isInBoundary d = true) :
    e.params = params ∧ e.status = GameStatus.idle ∧ e.field.params = params ∧
      AdjInvariant e.field ∧
      (∀ q, (e.field.cells q).isRevealed = false ∧ (e.field.cells q).isFlagged = false) ∧
      (0 ≤ params.mines → (minedCount e.field : Int) = params.mines) ∧
      (params.mines < 0 → minedCount e.field = 0) := by
  unfold mkEngine mkEngineWith factoryCreate at h
  cases hpm : (fieldOfCells params draws fun _ => blankCell).placeMines with
  | none =>
    rw [hpm] at h
    cases h
  | some g =>
    rw [hpm] at h
    simp only [Option.map_some'] at h
    have he : e =
        { params := params
          field := g
          status := GameStatus.idle
          flagsRemaining := params.mines } := (Option.some_inj.mp h).symm
    subst he
    have hpm2 : (blankField params draws).placeMines = some g := hpm
    unfold Field.placeMines at hpm2
    rw [blank_isMined params draws] at hpm2
    simp only [Bool.false_eq_true, if_false] at hpm2
    by_cases hm : 0 ≤ params.mines
    · obtain ⟨h1, h2, h3, h4, h5, h6⟩ := placeMinesGo_spec params.mines draws
        { blankField params draws with isMined := true } [] 0 g hpm2
        (fun d hdm => hd d hdm)
        (fun p hp => by
          exfalso
          have : (Field.cells { blankField params draws with isMined := true } p).isMine =
              false := by
            simp [blankField, fieldOfCells, blankCell]
          rw [this] at hp
          cases hp)
        hm
        (adjInvariant_blank params draws)
      refine ⟨rfl, rfl, h2, h1, ?_, ?_⟩
      · intro q
        obtain ⟨hr, hf⟩ := h5 q
        refine ⟨?_, ?_⟩
        · rw [hr]
          simp [blankField, fieldOfCells, blankCell]
        · rw [hf]
          simp [blankField, fieldOfCells, blankCell]
      · refine ⟨fun _ => ?_, fun hneg => absurd hm (by omega)⟩
        rw [h6]
        have : minedCount { blankField params draws with isMined := true } = 0 :=
          minedCount_blank params draws
        rw [this]
        omega
    · have h0 : ¬ (0 : Int) < params.mines := by omega
      have h0b : ¬ (0 : Int) < (blankField params draws).params.mines := h0
      have hg : g = { blankField params draws with isMined := true } := by
        rw [placeMinesGo_done h0b] at hpm2
        exact (Option.some_inj.mp hpm2).symm
      subst hg
      refine ⟨rfl, rfl, rfl, adjInvariant_blank params draws, ?_, ?_⟩
      · intro q
        exact ⟨by simp [blankField, fieldOfCells, blankCell],
          by simp [blankField, fieldOfCells, blankCell]⟩
      · refine ⟨fun hpos => absurd hpos (by omega), fun _ => minedCount_blank params draws⟩

theorem revealMain_ordinary {f1 : Field} {pos : Position} {target : Cell}
    (hfl : target.isFlagged = false) (hm : target.isMine = false)
    (hrev : target.isRevealed = false) :
    revealMain f1 pos GameStatus.playing target =
      ((openArea f1 pos).1,
        { handledCells := [CellData.mk pos target]
          flaggedCells := []
          unflaggedCells := (openArea f1 pos).2.1
          revealedCells := (openArea f1 pos).2.2
          explodedCells := [] }) := by
  unfold revealMain
  simp [hfl, hm, hrev, emptyLists]

theorem reveal_fresh_target {e : Engine} {pos : Position} {f1 : Field}
    (hstep : revealIdleStep e pos e.field.cloneSelf = some (f1, GameStatus.playing))
    (hp : f1.params = e.field.params)
    (hb : e.field.isInBoundary pos = true)
    (hadj : AdjInvariant f1)
    (huntouched : ∀ q, (f1.cells q).isRevealed = false ∧ (f1.cells q).isFlagged = false)
    (hm : (f1.cells pos).isMine = false) :
    ∃ r, e.revealCell pos = some r ∧ ¬ r.actionSnapshot.status = GameStatus.lost ∧
      (r.applyField.cells pos).isMine = false ∧
      (r.applyField.cells pos).isRevealed = true ∧
      (∀ q, (r.applyField.cells q).isMine = (f1.cells q).isMine) := by
  have hb1 : f1.isInBoundary pos = true := by
    rw [isInBoundary_congr hp]
    exact hb
  refine ⟨_, revealCell_eq hstep hb1, ?_, ?_, ?_, ?_⟩
  · show ¬ e.determineStatus ((revealMain f1 pos GameStatus.playing (f1.cells pos)).1.getState) =
      GameStatus.lost
    rw [revealMain_ordinary (huntouched pos).2 hm (huntouched pos).1]
    apply determineStatus_ne_lost
    rw [explodedCells_eq_nil]
    intro q hq
    rw [Cell.isExploded, cells_openArea]
    by_cases harea : q ∈ f1.areaOf pos
    · have hqm : (f1.cells q).isMine = false := areaOf_no_mine hadj hb1 hm q harea
      simp [harea, hqm]
    · simp [harea, (huntouched q).1]
  · show ((revealMain f1 pos GameStatus.playing (f1.cells pos)).1.cells pos).isMine = false
    rw [revealMain_ordinary (huntouched pos).2 hm (huntouched pos).1]
    rw [cells_openArea, if_pos (mem_areaOf_self hb1)]
    simpa using hm
  · show ((revealMain f1 pos GameStatus.playing (f1.cells pos)).1.cells pos).isRevealed = true
    rw [revealMain_ordinary (huntouched pos).2 hm (huntouched pos).1]
    rw [cells_openArea, if_pos (mem_areaOf_self hb1)]
  · intro q
    show ((revealMain f1 pos GameStatus.playing (f1.cells pos)).1.cells q).isMine =
      (f1.cells q).isMine
    rw [revealMain_ordinary (huntouched pos).2 hm (huntouched pos).1]
    exact (minesAdj_openArea f1 pos q).1

/-- C1: on a freshly constructed engine with rows * cols > mines and
in-bounds random draws, the first revealCell of any in-bounds cell never
returns a Lost snapshot; the target ends up revealed and unmined, and if
it was mined the mine has been moved to a previously unmined cell. -/
theorem first_move_safety :
    ∀ (params : GameParams) (draws : List Position) (e : Engine) (p : Position)
      (r : ActionResult),
      mkEngine params draws = some e →
      (∀ d ∈ draws, (blankField params draws).isInBoundary d = true) →
      params.mines < params.rows * params.cols →
      e.field.isInBoundary p = true →
      e.revealCell p = some r →
      (¬ r.actionSnapshot.status = GameStatus.lost ∧
        (r.applyField.cells p).isMine = false ∧
        (r.applyField.cells p).isRevealed = true ∧
        ((e.field.cells p).isMine = true →
          ∃ u, ¬ u = p ∧ (e.field.cells u).isMine = false ∧
            (r.applyField.cells u).isMine = true)) := by
  intro params draws e p r hmk hd hlt hbp hrun
  obtain ⟨hpar, hst, hfp, hadj, hun, hcnt, hcnt0⟩ := mkEngine_spec hmk hd
  have hrows : 0 < params.rows ∧ 0 < params.cols := by
    rw [isInBoundary_iff] at hbp
    rw [hfp] at hbp
    constructor <;> omega
  have hsd : e.field.cloneSelf.isMined = true ∨ ¬ 0 < e.field.cloneSelf.params.mines := by
    by_cases hmz : 0 < params.mines
    · left
      have hceq := hcnt (le_of_lt hmz)
      have : 0 < minedCount e.field := by omega
      exact minedCount_pos_any this
    · right
      rw [params_cloneSelf, hfp]
      exact hmz
  have hb0 : e.field.cloneSelf.isInBoundary p = true := hbp
  by_cases hm : (e.field.cells p).isMine = true
  · have hmc : (e.field.cloneSelf.cells p).isMine = true := hm
    have hcount : minedCount e.field.cloneSelf < e.field.cloneSelf.allPositions.length := by
      have h1 : minedCount e.field.cloneSelf = minedCount e.field := rfl
      have h2 : e.field.cloneSelf.allPositions.length =
          params.rows.toNat * params.cols.toNat := by
        rw [length_allPositions, params_cloneSelf, hfp]
      have h3 : (params.rows.toNat * params.cols.toNat : Int) =
          params.rows * params.cols := by
        rw [Int.toNat_of_nonneg (le_of_lt hrows.1), Int.toNat_of_nonneg (le_of_lt hrows.2)]
      have hmpos : 0 ≤ params.mines := by
        by_contra hneg
        have hz := hcnt0 (by omega)
        have : 0 < minedCount e.field := minedCount_pos_of_mine hbp hm
        omega
      have hceq := hcnt hmpos
      rw [h1, h2]
      omega
    obtain ⟨u, hfu, humine, hub⟩ := findUnmined_exists hcount
    have hstep := revealIdleStep_idle_mine (e := e) hst hsd hb0 hmc hfu
    have hup : ¬ u = p := by
      intro hup
      rw [hup] at humine
      rw [humine] at hmc
      cases hmc
    have hf1adj : AdjInvariant (Field.relocateMine
        { e.field.cloneSelf with isMined := true } p u) := by
      apply adjInvariant_relocateMine (f := { e.field.cloneSelf with isMined := true })
        hadj hb0 hmc hub humine
    obtain ⟨r2, hr2, hc1, hc2, hc3, hc4⟩ := reveal_fresh_target hstep
      (by rw [params_relocateMine]; rfl) hbp hf1adj
      (fun q => ⟨by rw [isRevealed_relocateMine]; exact (hun q).1,
        by rw [isFlagged_relocateMine]; exact (hun q).2⟩)
      (by
        rw [isMine_relocateMine]
        have hpu : ¬ p = u := fun hx => hup hx.symm
        simp [hpu])
    rw [hrun] at hr2
    have hrr : r = r2 := Option.some_inj.mp hr2
    subst hrr
    refine ⟨hc1, hc2, hc3, fun _ => ⟨u, hup, humine, ?_⟩⟩
    rw [hc4 u, isMine_relocateMine]
    simp
  · have hmc : (e.field.cloneSelf.cells p).isMine = false := by simpa using hm
    have hstep := revealIdleStep_idle_nonmine (e := e) hst hsd hb0 hmc
    obtain ⟨r2, hr2, hc1, hc2, hc3, hc4⟩ := reveal_fresh_target hstep rfl hbp
      hadj (fun q => hun q) hmc
    rw [hrun] at hr2
    have hrr : r = r2 := Option.some_inj.mp hr2
    subst hrr
    exact ⟨hc1, hc2, hc3, fun hx => absurd hx hm⟩

theorem first_move_safety_witness :
    ¬ ((engineB.revealCell ⟨0, 0⟩).getD defaultResult).actionSnapshot.status =
        GameStatus.lost ∧
      (((engineB.revealCell ⟨0, 0⟩).getD defaultResult).applyField.cells ⟨0, 0⟩).isMine =
        false :=
  ⟨(first_move_safety ⟨2, 2, 1⟩ [⟨0, 0⟩] engineB ⟨0, 0⟩
      ((engineB.revealCell ⟨0, 0⟩).getD defaultResult) rfl (by decide) (by decide)
      (by decide) rfl).1,
    (first_move_safety ⟨2, 2, 1⟩ [⟨0, 0⟩] engineB ⟨0, 0⟩
      ((engineB.revealCell ⟨0, 0⟩).getD defaultResult) rfl (by decide) (by decide)
      (by decide) rfl).2.1⟩

/-- C4: for an in-bounds empty origin, getAreaToReveal returns exactly
the set described by InArea: the maximal region of empty cells connected
to the origin together with every cell bordering that region, regardless
of revealed or flagged state; for a mined or numbered origin it returns
the singleton area. -/
theorem flood_fill_area_exact :
    ∀ (f : Field) (o : Position), f.isInBoundary o = true →
      ((f.cells o).isEmpty = true →
        ∃ A, f.getAreaToReveal o = some A ∧ ∀ q, (q ∈ A ↔ InArea f o q)) ∧
      ((f.cells o).isEmpty = false → f.getAreaToReveal o = some [o]) := by
  intro f o hb
  constructor
  · intro he
    refine ⟨f.areaOf o, ?_, areaOf_spec hb he⟩
    unfold Field.getAreaToReveal
    rw [getCell_some hb]
    rfl
  · intro he
    unfold Field.getAreaToReveal
    rw [getCell_some hb]
    rw [areaOf_singleton he]
    rfl

theorem flood_fill_area_exact_witness :
    ∃ A, fieldC8.getAreaToReveal ⟨0, 2⟩ = some A ∧
      ∀ q, (q ∈ A ↔ InArea fieldC8 ⟨0, 2⟩ q) :=
  (flood_fill_area_exact fieldC8 ⟨0, 2⟩ (by decide)).1 (by decide)

/- Pointwise mine and adjacency preservation along the action paths,
   used to carry invariant I1 through committed actions. -/

theorem anyMine_congr {f g : Field} (hp : g.params = f.params)
    (hm : ∀ q, (g.cells q).isMine = (f.cells q).isMine) :
    (g.allPositions.any fun p => (g.cells p).isMine) =
      (f.allPositions.any fun p => (f.cells p).isMine) := by
  rw [allPositions_congr hp]
  have hfun : (fun p => (g.cells p).isMine) = fun p => (f.cells p).isMine := funext hm
  rw [hfun]

theorem adjInvariant_congr {f g : Field} (hp : g.params = f.params)
    (hm : ∀ q, (g.cells q).isMine = (f.cells q).isMine)
    (ha : ∀ q, (g.cells q).adjacentMines = (f.cells q).adjacentMines)
    (hf : AdjInvariant f) : AdjInvariant g := by
  intro p hb
  rw [isInBoundary_congr hp] at hb
  rw [ha p, hf p hb]
  unfold minedSiblingCount
  rw [getSiblings_congr hp]
  have hfun : (fun s => (g.cells s).isMine) = fun s => (f.cells s).isMine := funext hm
  rw [hfun]

theorem chordStep_minesAdj (acc : ChordAcc) (x q : Position) :
    (((chordStep acc x).f.cells q).isMine = (acc.f.cells q).isMine ∧
      ((chordStep acc x).f.cells q).adjacentMines = (acc.f.cells q).adjacentMines) ∧
      (chordStep acc x).f.params = acc.f.params := by
  unfold chordStep
  dsimp only
  by_cases h1 : ((acc.f.cells x).isFlagged || (acc.f.cells x).isRevealed) = true
  · simp [h1]
  · have h1f : ((acc.f.cells x).isFlagged || (acc.f.cells x).isRevealed) = false := by
      rw [Bool.eq_false_iff]
      exact h1
    by_cases h2 : ((acc.f.cells x).isMine && !(acc.f.cells x).isFlagged) = true
    · simp only [h1f, Bool.false_eq_true, if_false, h2, if_true]
      refine ⟨⟨?_, ?_⟩, ?_⟩
      · rw [cells_setCell]
        by_cases hq : q = x
        · subst hq
          simp
        · simp [hq]
      · rw [cells_setCell]
        by_cases hq : q = x
        · subst hq
          simp
        · simp [hq]
      · exact params_setCell ..
    · have h2f : ((acc.f.cells x).isMine && !(acc.f.cells x).isFlagged) = false := by
        rw [Bool.eq_false_iff]
        exact h2
      simp only [h1f, Bool.false_eq_true, if_false, h2f]
      exact ⟨minesAdj_openArea acc.f x q, params_openArea acc.f x⟩

theorem chord_foldl_minesAdj (l : List Position) (f : Field) (q : Position) :
    (((l.foldl chordStep ⟨f, [], [], []⟩).f.cells q).isMine = (f.cells q).isMine ∧
      ((l.foldl chordStep ⟨f, [], [], []⟩).f.cells q).adjacentMines =
        (f.cells q).adjacentMines) ∧
      (l.foldl chordStep ⟨f, [], [], []⟩).f.params = f.params := by
  refine foldl_inv (fun a : ChordAcc =>
      ((a.f.cells q).isMine = (f.cells q).isMine ∧
        (a.f.cells q).adjacentMines = (f.cells q).adjacentMines) ∧
      a.f.params = f.params) chordStep l ?_ ⟨f, [], [], []⟩ ⟨⟨rfl, rfl⟩, rfl⟩
  intro b a _ hb
  obtain ⟨⟨hb1, hb2⟩, hb3⟩ := hb
  obtain ⟨⟨hs1, hs2⟩, hs3⟩ := chordStep_minesAdj b a q
  exact ⟨⟨hs1.trans hb1, hs2.trans hb2⟩, hs3.trans hb3⟩

theorem handleRevealedClick_minesAdj (f : Field) (tpos q : Position) :
    (((handleRevealedClick f tpos).1.cells q).isMine = (f.cells q).isMine ∧
      ((handleRevealedClick f tpos).1.cells q).adjacentMines = (f.cells q).adjacentMines) ∧
      (handleRevealedClick f tpos).1.params = f.params := by
  unfold handleRevealedClick
  dsimp only
  by_cases hc : ((((f.getSiblings tpos).filter fun s => (f.cells s).isFlagged).length : Int) =
      (f.cells tpos).adjacentMines)
  · rw [if_pos hc]
    exact chord_foldl_minesAdj (f.getSiblings tpos) f q
  · rw [if_neg hc]
    exact ⟨⟨rfl, rfl⟩, rfl⟩

theorem revealMain_minesAdj (f1 : Field) (pos : Position) (st : GameStatus) (q : Position) :
    (((revealMain f1 pos st (f1.cells pos)).1.cells q).isMine = (f1.cells q).isMine ∧
      ((revealMain f1 pos st (f1.cells pos)).1.cells q).adjacentMines =
        (f1.cells q).adjacentMines) ∧
      (revealMain f1 pos st (f1.cells pos)).1.params = f1.params := by
  unfold revealMain
  dsimp only
  by_cases h0 : (decide (st = GameStatus.playing) && !(f1.cells pos).isFlagged) = true
  · simp only [h0, if_true]
    by_cases hm : (f1.cells pos).isMine = true
    · simp only [hm, if_true]
      refine ⟨⟨?_, ?_⟩, ?_⟩
      · rw [cells_setCell]
        by_cases hq : q = pos
        · subst hq
          simp [hm]
        · simp [hq]
      · rw [cells_setCell]
        by_cases hq : q = pos
        · subst hq
          simp
        · simp [hq]
      · exact params_setCell ..
    · have hmf : (f1.cells pos).isMine = false := by
        rw [Bool.eq_false_iff]
        exact hm
      simp only [hmf, Bool.false_eq_true, if_false]
      by_cases hr : (f1.cells pos).isRevealed = true
      · simp only [hr, if_true]
        exact handleRevealedClick_minesAdj f1 pos q
      · have hrf : (f1.cells pos).isRevealed = false := by
          rw [Bool.eq_false_iff]
          exact hr
        simp only [hrf, Bool.false_eq_true, if_false]
        exact ⟨minesAdj_openArea f1 pos q, params_openArea f1 pos⟩
  · have h0f : (decide (st = GameStatus.playing) && !(f1.cells pos).isFlagged) = false := by
      rw [Bool.eq_false_iff]
      exact h0
    simp [h0f]

theorem mkToggle_minesAdj (e : Engine) (pos q : Position) :
    (((mkToggleResult e pos e.field.cloneSelf (e.field.cells pos)).applyField.cells q).isMine =
        (e.field.cells q).isMine ∧
      (((mkToggleResult e pos e.field.cloneSelf
          (e.field.cells pos)).applyField.cells q).adjacentMines =
        (e.field.cells q).adjacentMines)) ∧
      (mkToggleResult e pos e.field.cloneSelf (e.field.cells pos)).applyField.params =
        e.field.params := by
  unfold mkToggleResult
  dsimp only
  by_cases h0 : (decide (e.status = GameStatus.playing) && !(e.field.cells pos).isRevealed) =
      true
  · simp only [h0, if_true]
    by_cases hf : (e.field.cells pos).isFlagged = true
    · simp only [hf, if_true]
      refine ⟨⟨?_, ?_⟩, ?_⟩
      · rw [cells_setCell]
        by_cases hq : q = pos
        · subst hq
          simp
        · simp [hq]
          rfl
      · rw [cells_setCell]
        by_cases hq : q = pos
        · subst hq
          simp
        · simp [hq]
          rfl
      · exact params_setCell ..
    · have hff : (e.field.cells pos).isFlagged = false := by
        rw [Bool.eq_false_iff]
        exact hf
      simp only [hff, Bool.false_eq_true, if_false]
      by_cases hrem : 0 < e.flagsRemaining
      · simp only [hrem, if_true]
        refine ⟨⟨?_, ?_⟩, ?_⟩
        · rw [cells_setCell]
          by_cases hq : q = pos
          · subst hq
            simp
          · simp [hq]
            rfl
        · rw [cells_setCell]
          by_cases hq : q = pos
          · subst hq
            simp
          · simp [hq]
            rfl
        · exact params_setCell ..
      · simp only [hrem, if_false]
        exact ⟨⟨rfl, rfl⟩, rfl⟩
  · have h0f : (decide (e.status = GameStatus.playing) && !(e.field.cells pos).isRevealed) =
        false := by
      rw [Bool.eq_false_iff]
      exact h0
    simp only [h0f, Bool.false_eq_true, if_false]
    exact ⟨⟨rfl, rfl⟩, rfl⟩

/- Invariant I1 and seededness through the Idle first-move block. -/

theorem revealIdleStep_fieldInv {e : Engine} {pos : Position} {f1 : Field} {st1 : GameStatus}
    (hadj : AdjInvariant e.field) (hseed : Engine.seeded e)
    (h : revealIdleStep e pos e.field.cloneSelf = some (f1, st1)) :
    f1.params = e.field.params ∧ AdjInvariant f1 ∧
      ((f1.allPositions.any fun p => (f1.cells p).isMine) = true ∨
        ¬ 0 < f1.params.mines) := by
  have hsd : e.field.cloneSelf.isMined = true ∨ ¬ 0 < e.field.cloneSelf.params.mines := hseed
  by_cases hst : e.status = GameStatus.idle
  · by_cases hb : e.field.isInBoundary pos = true
    · have hb0 : e.field.cloneSelf.isInBoundary pos = true := hb
      by_cases hm : (e.field.cloneSelf.cells pos).isMine = true
      · cases hfu : e.field.cloneSelf.findUnmined with
        | none =>
          rw [revealIdleStep_idle_mine_none hst hsd hb0 hm hfu] at h
          have heq := Option.some_inj.mp h
          have hf1 : f1 = { e.field.cloneSelf with isMined := true } :=
            (congrArg Prod.fst heq).symm
          subst hf1
          exact ⟨rfl, hadj, hseed⟩
        | some u =>
          rw [revealIdleStep_idle_mine hst hsd hb0 hm hfu] at h
          have heq := Option.some_inj.mp h
          have hf1 : f1 =
              Field.relocateMine { e.field.cloneSelf with isMined := true } pos u :=
            (congrArg Prod.fst heq).symm
          subst hf1
          have hfu2 : e.field.cloneSelf.allPositions.find?
              (fun p => !(e.field.cloneSelf.cells p).isMine) = some u := hfu
          have humem : u ∈ e.field.cloneSelf.allPositions :=
            List.mem_of_find?_eq_some hfu2
          have humine : (e.field.cloneSelf.cells u).isMine = false := by
            have := List.find?_some hfu2
            simpa using this
          have hub : e.field.cloneSelf.isInBoundary u = true := mem_allPositions.mp humem
          have hpeq : (Field.relocateMine { e.field.cloneSelf with isMined := true }
              pos u).params = e.field.params := by
            rw [params_relocateMine]
            rfl
          refine ⟨hpeq, ?_, ?_⟩
          · exact adjInvariant_relocateMine
              (f := { e.field.cloneSelf with isMined := true }) hadj hb0 hm hub humine
          · left
            apply minedCount_pos_any
            apply minedCount_pos_of_mine (p := u)
            · rw [isInBoundary_congr (f := e.field) hpeq]
              exact hub
            · rw [isMine_relocateMine]
              simp
      · have hmf : (e.field.cloneSelf.cells pos).isMine = false := by
          rw [Bool.eq_false_iff]
          exact hm
        rw [revealIdleStep_idle_nonmine hst hsd hb0 hmf] at h
        have heq := Option.some_inj.mp h
        have hf1 : f1 = { e.field.cloneSelf with isMined := true } :=
          (congrArg Prod.fst heq).symm
        subst hf1
        exact ⟨rfl, hadj, hseed⟩
    · rw [revealIdleStep_oob hseed hst hb] at h
      cases h
  · rw [revealIdleStep_not_idle hst] at h
    have heq := Option.some_inj.mp h
    have hf1 : f1 = e.field.cloneSelf := (congrArg Prod.fst heq).symm
    subst hf1
    exact ⟨rfl, hadj, hseed⟩

/- Invariant I1 together with seededness holds at every reachable engine
   state. -/

theorem reachable_inv {e : Engine} (h : Reachable e) :
    AdjInvariant e.field ∧ Engine.seeded e := by
  induction h with
  | init params rng e0 hd hmk =>
    obtain ⟨h1, h2, h3, h4, h5, h6, h7⟩ := mkEngine_spec hmk hd
    refine ⟨h4, ?_⟩
    by_cases hm : 0 < e0.field.params.mines
    · left
      apply minedCount_pos_any
      have hm2 : 0 < params.mines := by
        rw [← h3]
        exact hm
      have hceq := h6 (le_of_lt hm2)
      omega
    · right
      exact hm
  | reveal e0 p r hre hcall ih =>
    obtain ⟨hadj, hseed⟩ := ih
    obtain ⟨f1, st1, hstep, hb1, hr⟩ := revealCell_inv hcall
    obtain ⟨hp1, hadj1, hseed1⟩ := revealIdleStep_fieldInv hadj hseed hstep
    subst hr
    obtain ⟨hMA, hP⟩ := And.intro
      (fun q => (revealMain_minesAdj f1 p st1 q).1)
      (revealMain_minesAdj f1 p st1 p).2
    constructor
    · show AdjInvariant (revealMain f1 p st1 (f1.cells p)).1
      exact adjInvariant_congr hP (fun q => (hMA q).1) (fun q => (hMA q).2) hadj1
    · show ((((revealMain f1 p st1 (f1.cells p)).1).allPositions.any
          fun q => (((revealMain f1 p st1 (f1.cells p)).1).cells q).isMine) = true) ∨
        ¬ 0 < ((revealMain f1 p st1 (f1.cells p)).1).params.mines
      rw [anyMine_congr hP fun q => (hMA q).1]
      rw [hP]
      exact hseed1
  | flag e0 p r hre hcall ih =>
    obtain ⟨hadj, hseed⟩ := ih
    obtain ⟨hb, hr⟩ := toggleFlag_inv hcall
    subst hr
    constructor
    · exact adjInvariant_congr (mkToggle_minesAdj e0 p p).2
        (fun q => (mkToggle_minesAdj e0 p q).1.1)
        (fun q => (mkToggle_minesAdj e0 p q).1.2) hadj
    · show (((mkToggleResult e0 p e0.field.cloneSelf
            (e0.field.cells p)).applyField.allPositions.any
          fun q => ((mkToggleResult e0 p e0.field.cloneSelf
            (e0.field.cells p)).applyField.cells q).isMine) = true) ∨
        ¬ 0 < (mkToggleResult e0 p e0.field.cloneSelf
            (e0.field.cells p)).applyField.params.mines
      rw [anyMine_congr (mkToggle_minesAdj e0 p p).2 fun q => (mkToggle_minesAdj e0 p q).1.1]
      rw [(mkToggle_minesAdj e0 p p).2]
      exact hseed

/-- C7: invariant I1 — every cell's adjacentMines equals the live count of
its mined in-bounds neighbors — holds at every reachable engine state
(after construction, lazy placeMines, first-move relocation, and every
committed revealCell / toggleFlag action), and the mineCell, unMineCell
and relocateMine operations each maintain it incrementally. -/
theorem adjacency_invariant :
    (∀ e : Engine, Reachable e → AdjInvariant e.field) ∧
    (∀ (f : Field) (p : Position), AdjInvariant f → f.isInBoundary p = true →
      (f.cells p).isMine = false → AdjInvariant (f.mineCell p)) ∧
    (∀ (f : Field) (p : Position), AdjInvariant f → f.isInBoundary p = true →
      (f.cells p).isMine = true → AdjInvariant (f.unMineCell p)) ∧
    (∀ (f : Field) (a b : Position), AdjInvariant f → f.isInBoundary a = true →
      (f.cells a).isMine = true → f.isInBoundary b = true →
      (f.cells b).isMine = false → AdjInvariant (f.relocateMine a b)) := by
  refine ⟨?_, ?_, ?_, ?_⟩
  · intro e h
    exact (reachable_inv h).1
  · intro f p hf hb hm
    exact adjInvariant_mineCell hf hb hm
  · intro f p hf hb hm
    exact adjInvariant_unMineCell hf hb hm
  · intro f a b hf ha hma hb hmb
    exact adjInvariant_relocateMine hf ha hma hb hmb

theorem adjacency_invariant_witness : AdjInvariant engineB.field :=
  adjacency_invariant.1 engineB
    (Reachable.init ⟨2, 2, 1⟩ [⟨0, 0⟩] engineB (by decide) rfl)

/-- C9: contrary to the claim, the per-region exhaustive enumeration is
never executed by solve (the inferBySetTheory call is commented out of
the source), and no resource ceiling or bounded-resource error exists
anywhere on that path: on the ambiguous 2 x 2 frontier board fieldC9 the
solver returns no probabilities at all instead of analysing the region,
and generateAllAssignments silently enumerates all 2 ^ n assignments for
every variable list, never failing. -/
theorem solver_enumeration_dead_code :
    solve fieldC9 = [] ∧
      ∀ vs : List Position, (generateAllAssignments vs).length = 2 ^ vs.length := by
  constructor
  · rfl
  · intro vs
    unfold generateAllAssignments
    rw [List.length_map, List.length_range, Nat.one_shiftLeft]

/- Lookup lemmas for the probability association list. -/

theorem findProb_nil (p : Position) : findProb [] p = none := rfl

theorem findProb_append (l1 l2 : List (Position × Rat)) (p : Position) :
    findProb (l1 ++ l2) p = (findProb l1 p).or (findProb l2 p) := by
  unfold findProb
  rw [List.find?_append]
  cases List.find? (fun en => en.1 == p) l1 <;> simp

theorem findProb_append_left {l1 : List (Position × Rat)} {p : Position} {v : Rat}
    (h : findProb l1 p = some v) (l2 : List (Position × Rat)) :
    findProb (l1 ++ l2) p = some v := by
  rw [findProb_append, h]
  rfl

theorem findProb_single (s p : Position) (v : Rat) :
    findProb [(s, v)] p = if s = p then some v else none := by
  unfold findProb
  by_cases h : s = p
  · simp [List.find?, h]
  · have hsp : (s == p) = false := by
      simpa using h
    simp [List.find?, hsp, h]

/- With no exploded cell, every mined sibling is among the closed
   siblings. -/

theorem mined_filter_closed {f : Field} (hne : NoExploded f) (tpos : Position) :
    (f.getSiblings tpos).filter (fun s => (f.cells s).isMine) =
      ((f.getSiblings tpos).filter fun s => !(f.cells s).isRevealed).filter
        fun s => (f.cells s).isMine := by
  rw [List.filter_filter]
  apply List.filter_congr
  intro s hs
  by_cases hm : (f.cells s).isMine = true
  · have hnrev : (f.cells s).isRevealed = false := hne s (getSiblings_inB hs) hm
    rw [hm, hnrev]
    rfl
  · have hmf : (f.cells s).isMine = false := Bool.eq_false_iff.mpr hm
    rw [hmf]
    rfl

/- The certain-mines rule: when the cell number equals closed minus
   known-safe, every closed sibling without an entry is a mine. -/

theorem certain_mines_key {f : Field} (hadj : AdjInvariant f) (hne : NoExploded f)
    {tpos : Position} (hb : f.isInBoundary tpos = true)
    {probs : List (Position × Rat)} (hs : SoundProbs f probs)
    (hcond : (f.cells tpos).adjacentMines =
      ((((f.getSiblings tpos).filter fun s => !(f.cells s).isRevealed).length : Int) -
        (((((f.getSiblings tpos).filter fun s => !(f.cells s).isRevealed).filter
          fun s => findProb probs s == some 0).length : Int)))) :
    ∀ s ∈ (f.getSiblings tpos).filter fun s => !(f.cells s).isRevealed,
      findProb probs s = none → (f.cells s).isMine = true := by
  intro s hsmem hnone
  have hM : ((f.getSiblings tpos).filter fun x => (f.cells x).isMine) =
      ((f.getSiblings tpos).filter fun s => !(f.cells s).isRevealed).filter
        fun x => (f.cells x).isMine := mined_filter_closed hne tpos
  have hadjv : (f.cells tpos).adjacentMines =
      (((((f.getSiblings tpos).filter fun s => !(f.cells s).isRevealed).filter
        fun x => (f.cells x).isMine).length : Int)) := by
    rw [hadj tpos hb]
    unfold minedSiblingCount
    rw [hM]
  have hMA : (((f.getSiblings tpos).filter fun s => !(f.cells s).isRevealed).filter
      fun x => (f.cells x).isMine) =
      ((((f.getSiblings tpos).filter fun s => !(f.cells s).isRevealed).filter
        fun x => !(findProb probs x == some 0)).filter fun x => (f.cells x).isMine) := by
    nth_rewrite 2 [List.filter_filter]
    apply List.filter_congr
    intro x hx
    by_cases hm : (f.cells x).isMine = true
    · have hns : (findProb probs x == some 0) = false := by
        rw [Bool.eq_false_iff]
        intro hbeq
        have h0 : findProb probs x = some 0 := by simpa using hbeq
        have := (hs x 0 h0).1 rfl
        rw [hm] at this
        cases this
      rw [hm, hns]
      rfl
    · have hmf : (f.cells x).isMine = false := Bool.eq_false_iff.mpr hm
      rw [hmf]
      rfl
  have hsplit : (((f.getSiblings tpos).filter fun s => !(f.cells s).isRevealed).filter
        fun x => (findProb probs x == some 0)).length +
      (((f.getSiblings tpos).filter fun s => !(f.cells s).isRevealed).filter
        fun x => !(findProb probs x == some 0)).length =
      ((f.getSiblings tpos).filter fun s => !(f.cells s).isRevealed).length :=
    (List.length_eq_length_filter_add _).symm
  have hlenM : (((f.getSiblings tpos).filter fun s => !(f.cells s).isRevealed).filter
        fun x => (f.cells x).isMine).length =
      (((f.getSiblings tpos).filter fun s => !(f.cells s).isRevealed).filter
        fun x => !(findProb probs x == some 0)).length := by
    have h1 := hcond
    rw [hadjv] at h1
    omega
  have heq : ((((f.getSiblings tpos).filter fun s => !(f.cells s).isRevealed).filter
      fun x => !(findProb probs x == some 0)).filter fun x => (f.cells x).isMine) =
      (((f.getSiblings tpos).filter fun s => !(f.cells s).isRevealed).filter
        fun x => !(findProb probs x == some 0)) := by
    apply List.Sublist.eq_of_length (List.filter_sublist _)
    rw [← hMA]
    exact hlenM
  have hall := List.filter_eq_self.mp heq
  apply hall
  apply List.mem_filter.mpr
  refine ⟨hsmem, ?_⟩
  rw [hnone]
  rfl

/- The certain-safe rule: when the known-mine count equals the cell
   number, every closed sibling without an entry is safe. -/

theorem certain_safe_key {f : Field} (hadj : AdjInvariant f) (hne : NoExploded f)
    {tpos : Position} (hb : f.isInBoundary tpos = true)
    {probs : List (Position × Rat)} (hs : SoundProbs f probs)
    (hcond : ((((f.getSiblings tpos).filter fun s => !(f.cells s).isRevealed).filter
        fun s => findProb probs s == some 1).length : Int) =
      (f.cells tpos).adjacentMines) :
    ∀ s ∈ (f.getSiblings tpos).filter fun s => !(f.cells s).isRevealed,
      findProb probs s = none → (f.cells s).isMine = false := by
  intro s hsmem hnone
  have hM : ((f.getSiblings tpos).filter fun x => (f.cells x).isMine) =
      ((f.getSiblings tpos).filter fun s => !(f.cells s).isRevealed).filter
        fun x => (f.cells x).isMine := mined_filter_closed hne tpos
  have hadjv : (f.cells tpos).adjacentMines =
      (((((f.getSiblings tpos).filter fun s => !(f.cells s).isRevealed).filter
        fun x => (f.cells x).isMine).length : Int)) := by
    rw [hadj tpos hb]
    unfold minedSiblingCount
    rw [hM]
  have hKM : (((f.getSiblings tpos).filter fun s => !(f.cells s).isRevealed).filter
      fun x => (findProb probs x == some 1)) =
      ((((f.getSiblings tpos).filter fun s => !(f.cells s).isRevealed).filter
        fun x => (f.cells x).isMine).filter fun x => (findProb probs x == some 1)) := by
    nth_rewrite 2 [List.filter_filter]
    apply List.filter_congr
    intro x hx
    by_cases h1 : (findProb probs x == some 1) = true
    · have hsome : findProb probs x = some 1 := by simpa using h1
      have hhm : (f.cells x).isMine = true := (hs x 1 hsome).2 rfl
      rw [h1, hhm]
      rfl
    · have h1f : (findProb probs x == some 1) = false := Bool.eq_false_iff.mpr h1
      rw [h1f]
      rfl
  have hlen : ((((f.getSiblings tpos).filter fun s => !(f.cells s).isRevealed).filter
        fun x => (f.cells x).isMine).filter fun x => (findProb probs x == some 1)).length =
      (((f.getSiblings tpos).filter fun s => !(f.cells s).isRevealed).filter
        fun x => (f.cells x).isMine).length := by
    rw [← hKM]
    omega
  have heq : ((((f.getSiblings tpos).filter fun s => !(f.cells s).isRevealed).filter
      fun x => (f.cells x).isMine).filter fun x => (findProb probs x == some 1)) =
      (((f.getSiblings tpos).filter fun s => !(f.cells s).isRevealed).filter
        fun x => (f.cells x).isMine) :=
    List.Sublist.eq_of_length (List.filter_sublist _) hlen
  by_cases hm : (f.cells s).isMine = true
  · exfalso
    have hsM : s ∈ ((f.getSiblings tpos).filter fun s => !(f.cells s).isRevealed).filter
        fun x => (f.cells x).isMine := List.mem_filter.mpr ⟨hsmem, hm⟩
    have hc1 := List.filter_eq_self.mp heq s hsM
    rw [hnone] at hc1
    exact absurd hc1 (by decide)
  · exact Bool.eq_false_iff.mpr hm

/- One cell of the certain-mines loop preserves soundness. -/

theorem certainMinesCellStep_sound {f : Field} (hadj : AdjInvariant f) (hne : NoExploded f)
    {cd : CellData} (hb : f.isInBoundary cd.position = true)
    (hdata : cd.data = f.cells cd.position)
    (acc : List (Position × Rat) × Bool) (hs : SoundProbs f acc.1) :
    SoundProbs f (certainMinesCellStep f acc cd).1 := by
  unfold certainMinesCellStep
  dsimp only
  by_cases hg : (cd.data.isEmpty || cd.data.isMine) = true
  · simp only [hg, if_true]
    exact hs
  · have hgf : (cd.data.isEmpty || cd.data.isMine) = false := Bool.eq_false_iff.mpr hg
    simp only [hgf, Bool.false_eq_true, if_false]
    by_cases hlen : ((f.getSiblings cd.position).filter
        fun s => !(f.cells s).isRevealed).length = 0
    · rw [if_pos hlen]
      exact hs
    · rw [if_neg hlen]
      by_cases hcond : cd.data.adjacentMines =
          ((((f.getSiblings cd.position).filter fun s => !(f.cells s).isRevealed).length : Int) -
            (((((f.getSiblings cd.position).filter fun s => !(f.cells s).isRevealed).filter
              fun s => findProb acc.1 s == some 0).length : Int)))
      · rw [if_pos hcond]
        have hkey : ∀ s ∈ (f.getSiblings cd.position).filter
              fun s => !(f.cells s).isRevealed,
            findProb acc.1 s = none → (f.cells s).isMine = true :=
          certain_mines_key hadj hne hb hs (by rw [← hdata]; exact hcond)
        refine (foldl_inv (fun a2 : List (Position × Rat) × Bool =>
            SoundProbs f a2.1 ∧ ∃ ext, a2.1 = acc.1 ++ ext) _
            ((f.getSiblings cd.position).filter fun s => !(f.cells s).isRevealed) ?_ acc
            ⟨hs, [], by simp⟩).1
        intro b s hsmem hbP
        obtain ⟨hbS, ext, hbpre⟩ := hbP
        by_cases hhas : (findProb b.1 s).isSome = true
        · rw [if_pos hhas]
          exact ⟨hbS, ext, hbpre⟩
        · rw [if_neg hhas]
          have hnoneb : findProb b.1 s = none := by
            cases hfb : findProb b.1 s with
            | none => rfl
            | some v =>
              rw [hfb] at hhas
              exact absurd rfl hhas
          have hnonea : findProb acc.1 s = none := by
            rw [hbpre] at hnoneb
            cases hfa : findProb acc.1 s with
            | none => rfl
            | some v =>
              rw [findProb_append_left hfa] at hnoneb
              cases hnoneb
          have hmine : (f.cells s).isMine = true := hkey s hsmem hnonea
          refine ⟨?_, ext ++ [(s, (1 : Rat))], by rw [hbpre, List.append_assoc]⟩
          intro q v hq
          rw [findProb_append] at hq
          cases hfb : findProb b.1 q with
          | some w =>
            rw [hfb] at hq
            have hwv : w = v := by simpa using hq
            exact hbS q v (hwv ▸ hfb)
          | none =>
            rw [hfb] at hq
            have hq2 : findProb [(s, (1 : Rat))] q = some v := by simpa using hq
            rw [findProb_single] at hq2
            by_cases hsq : s = q
            · rw [if_pos hsq] at hq2
              have hv : v = 1 := (Option.some_inj.mp hq2).symm
              subst hv
              constructor
              · intro h10
                exact absurd h10 (by norm_num)
              · intro _
                rw [← hsq]
                exact hmine
            · rw [if_neg hsq] at hq2
              cases hq2
      · rw [if_neg hcond]
        exact hs

/- One cell of the certain-safe loop preserves soundness. -/

theorem certainSafeCellStep_sound {f : Field} (hadj : AdjInvariant f) (hne : NoExploded f)
    {cd : CellData} (hb : f.isInBoundary cd.position = true)
    (hdata : cd.data = f.cells cd.position)
    (acc : List (Position × Rat) × Bool) (hs : SoundProbs f acc.1) :
    SoundProbs f (certainSafeCellStep f acc cd).1 := by
  unfold certainSafeCellStep
  dsimp only
  by_cases hg : (cd.data.isEmpty || cd.data.isMine) = true
  · simp only [hg, if_true]
    exact hs
  · have hgf : (cd.data.isEmpty || cd.data.isMine) = false := Bool.eq_false_iff.mpr hg
    simp only [hgf, Bool.false_eq_true, if_false]
    by_cases hlen : ((f.getSiblings cd.position).filter
        fun s => !(f.cells s).isRevealed).length = 0
    · rw [if_pos hlen]
      exact hs
    · rw [if_neg hlen]
      by_cases hcond : (((((f.getSiblings cd.position).filter
            fun s => !(f.cells s).isRevealed).filter
          fun s => findProb acc.1 s == some 1).length : Int)) = cd.data.adjacentMines
      · rw [if_pos hcond]
        have hkey : ∀ s ∈ (f.getSiblings cd.position).filter
              fun s => !(f.cells s).isRevealed,
            findProb acc.1 s = none → (f.cells s).isMine = false :=
          certain_safe_key hadj hne hb hs (by rw [← hdata]; exact hcond)
        refine (foldl_inv (fun a2 : List (Position × Rat) × Bool =>
            SoundProbs f a2.1 ∧ ∃ ext, a2.1 = acc.1 ++ ext) _
            ((f.getSiblings cd.position).filter fun s => !(f.cells s).isRevealed) ?_ acc
            ⟨hs, [], by simp⟩).1
        intro b s hsmem hbP
        obtain ⟨hbS, ext, hbpre⟩ := hbP
        by_cases hhas : (findProb b.1 s).isSome = true
        · rw [if_pos hhas]
          exact ⟨hbS, ext, hbpre⟩
        · rw [if_neg hhas]
          have hnoneb : findProb b.1 s = none := by
            cases hfb : findProb b.1 s with
            | none => rfl
            | some v =>
              rw [hfb] at hhas
              exact absurd rfl hhas
          have hnonea : findProb acc.1 s = none := by
            rw [hbpre] at hnoneb
            cases hfa : findProb acc.1 s with
            | none => rfl
            | some v =>
              rw [findProb_append_left hfa] at hnoneb
              cases hnoneb
          have hsafe : (f.cells s).isMine = false := hkey s hsmem hnonea
          refine ⟨?_, ext ++ [(s, (0 : Rat))], by rw [hbpre, List.append_assoc]⟩
          intro q v hq
          rw [findProb_append] at hq
          cases hfb : findProb b.1 q with
          | some w =>
            rw [hfb] at hq
            have hwv : w = v := by simpa using hq
            exact hbS q v (hwv ▸ hfb)
          | none =>
            rw [hfb] at hq
            have hq2 : findProb [(s, (0 : Rat))] q = some v := by simpa using hq
            rw [findProb_single] at hq2
            by_cases hsq : s = q
            · rw [if_pos hsq] at hq2
              have hv : v = 0 := (Option.some_inj.mp hq2).symm
              subst hv
              constructor
              · intro _
                rw [← hsq]
                exact hsafe
              · intro h01
                exact absurd h01 (by norm_num)
            · rw [if_neg hsq] at hq2
              cases hq2
      · rw [if_neg hcond]
        exact hs

theorem inferCertainMines_sound {f : Field} (hadj : AdjInvariant f) (hne : NoExploded f)
    {cells : List CellData}
    (hc : ∀ cd ∈ cells, f.isInBoundary cd.position = true ∧ cd.data = f.cells cd.position)
    {probs : List (Position × Rat)} (hs : SoundProbs f probs) :
    SoundProbs f (inferCertainMines f cells probs).1 := by
  unfold inferCertainMines
  exact foldl_inv (fun a : List (Position × Rat) × Bool => SoundProbs f a.1)
    (certainMinesCellStep f) cells
    (fun b cd hcd hb2 =>
      certainMinesCellStep_sound hadj hne (hc cd hcd).1 (hc cd hcd).2 b hb2)
    (probs, false) hs

theorem inferCertainSafeCells_sound {f : Field} (hadj : AdjInvariant f) (hne : NoExploded f)
    {cells : List CellData}
    (hc : ∀ cd ∈ cells, f.isInBoundary cd.position = true ∧ cd.data = f.cells cd.position)
    {probs : List (Position × Rat)} (hs : SoundProbs f probs) :
    SoundProbs f (inferCertainSafeCells f cells probs).1 := by
  unfold inferCertainSafeCells
  exact foldl_inv (fun a : List (Position × Rat) × Bool => SoundProbs f a.1)
    (certainSafeCellStep f) cells
    (fun b cd hcd hb2 =>
      certainSafeCellStep_sound hadj hne (hc cd hcd).1 (hc cd hcd).2 b hb2)
    (probs, false) hs

theorem solveLoop_sound {f : Field} (hadj : AdjInvariant f) (hne : NoExploded f)
    {revealed : List CellData}
    (hc : ∀ cd ∈ revealed, f.isInBoundary cd.position = true ∧
      cd.data = f.cells cd.position)
    (fuel : Nat) :
    ∀ probs : List (Position × Rat), SoundProbs f probs →
      SoundProbs f (solveLoop f revealed fuel probs) := by
  induction fuel with
  | zero =>
    intro probs hs
    exact hs
  | succ n ih =>
    intro probs hs
    unfold solveLoop
    dsimp only
    have h1 : SoundProbs f (inferCertainMines f revealed probs).1 :=
      inferCertainMines_sound hadj hne hc hs
    have h2 : SoundProbs f (inferCertainSafeCells f revealed
        (inferCertainMines f revealed probs).1).1 :=
      inferCertainSafeCells_sound hadj hne hc h1
    by_cases hch : ((inferCertainMines f revealed probs).2 ||
        (inferCertainSafeCells f revealed (inferCertainMines f revealed probs).1).2) = true
    · simp only [hch, if_true]
      exact ih _ h2
    · have hchf : ((inferCertainMines f revealed probs).2 ||
          (inferCertainSafeCells f revealed (inferCertainMines f revealed probs).1).2) =
          false := Bool.eq_false_iff.mpr hch
      simp only [hchf, Bool.false_eq_true, if_false]
      exact h2

theorem mem_getState_revealed {f : Field} {cd : CellData}
    (h : cd ∈ (f.getState).revealedCells) :
    f.isInBoundary cd.position = true ∧ cd.data = f.cells cd.position := by
  unfold Field.getState at h
  dsimp only at h
  obtain ⟨hmem, _⟩ := List.mem_filter.mp h
  obtain ⟨p, hp, hcd⟩ := List.mem_map.mp hmem
  rw [← hcd]
  exact ⟨mem_allPositions.mp hp, rfl⟩

/-- C8 (amended): on fields satisfying the adjacency invariant in which
no mine is revealed (as holds for every board that has not been lost),
the solver's certain rules are sound: every position solve reports with
probability 0 is not a mine and every position reported with probability
1 is a mine. On a board with an exploded (revealed) mine the rules can
misclassify, so the hypotheses are necessary. -/
theorem solver_soundness :
    ∀ f : Field, AdjInvariant f → NoExploded f → SoundProbs f (solve f) := by
  intro f hadj hne
  unfold solve
  apply solveLoop_sound hadj hne (fun cd hcd => mem_getState_revealed hcd)
  intro p v hv
  rw [findProb_nil] at hv
  cases hv

theorem solver_soundness_witness : SoundProbs engineB.field (solve engineB.field) :=
  solver_soundness engineB.field
    (reachable_inv (Reachable.init ⟨2, 2, 1⟩ [⟨0, 0⟩] engineB (by decide) rfl)).1
    (fun p hb hm =>
      ((@mkEngine_spec ⟨2, 2, 1⟩ [⟨0, 0⟩] engineB rfl (by decide)).2.2.2.2.1 p).1)

/-- C8 (counterexample to the claim as stated): on the lost 1 x 3 board
fieldC8, whose mine at (0, 0) is revealed (exploded), the revealed cell
(0, 1) shows 1 and its only closed sibling is the safe cell (0, 2); the
certain-mines rule marks (0, 2) with probability 1 although it is not a
mine. -/
theorem solver_soundness_cex :
    findProb (solve fieldC8) ⟨0, 2⟩ = some 1 ∧ (fieldC8.cells ⟨0, 2⟩).isMine = false := by
  constructor
  · rfl
  · rfl

/- Area transitivity and the membership characterization for arbitrary
   in-bounds origins. -/

theorem inArea_trans {f : Field} {o q x : Position} (h1 : InArea f o q)
    (h2 : InArea f q x) : InArea f o x := by
  induction h2 with
  | base => exact h1
  | step p y hp hemp hsib ih => exact InArea.step p y ih hemp hsib

theorem inArea_nonempty_eq {f : Field} {o q : Position}
    (he : (f.cells o).isEmpty = false) (h : InArea f o q) : q = o := by
  induction h with
  | base => rfl
  | step p y hp hemp hsib ih =>
    rw [ih] at hemp
    rw [hemp] at he
    cases he

theorem mem_areaOf_iff {f : Field} {o q : Position} (ho : f.isInBoundary o = true) :
    q ∈ f.areaOf o ↔ InArea f o q := by
  by_cases he : (f.cells o).isEmpty = true
  · exact areaOf_spec ho he q
  · have hef : (f.cells o).isEmpty = false := Bool.eq_false_iff.mpr he
    rw [areaOf_singleton hef]
    constructor
    · intro hq
      have hqo : q = o := by simpa using hq
      rw [hqo]
      exact InArea.base
    · intro hq
      simp [inArea_nonempty_eq hef hq]

/- Branch equations for one chord-loop iteration. -/

theorem chordStep_skip {acc : ChordAcc} {x : Position}
    (h : ((acc.f.cells x).isFlagged || (acc.f.cells x).isRevealed) = true) :
    chordStep acc x = acc := by
  unfold chordStep
  dsimp only
  simp only [h, if_true]

theorem chordStep_mine {acc : ChordAcc} {x : Position}
    (hfl : (acc.f.cells x).isFlagged = false) (hrev : (acc.f.cells x).isRevealed = false)
    (hm : (acc.f.cells x).isMine = true) :
    chordStep acc x =
      { acc with
          f := acc.f.setCell x { acc.f.cells x with isRevealed := true }
          explodedCells := acc.explodedCells ++
            [CellData.mk x { acc.f.cells x with isRevealed := true }] } := by
  unfold chordStep
  dsimp only
  have h1 : ((acc.f.cells x).isFlagged || (acc.f.cells x).isRevealed) = false := by
    rw [hfl, hrev]
    rfl
  have h2 : ((acc.f.cells x).isMine && !(acc.f.cells x).isFlagged) = true := by
    rw [hm, hfl]
    rfl
  simp only [h1, Bool.false_eq_true, if_false, h2, if_true, cells_setCell, if_pos rfl]

theorem chordStep_open {acc : ChordAcc} {x : Position}
    (hfl : (acc.f.cells x).isFlagged = false) (hrev : (acc.f.cells x).isRevealed = false)
    (hm : (acc.f.cells x).isMine = false) :
    chordStep acc x =
      { acc with
          f := (openArea acc.f x).1
          revealedCells := acc.revealedCells ++ (openArea acc.f x).2.2
          unflaggedCells := acc.unflaggedCells ++ (openArea acc.f x).2.1 } := by
  unfold chordStep
  dsimp only
  have h1 : ((acc.f.cells x).isFlagged || (acc.f.cells x).isRevealed) = false := by
    rw [hfl, hrev]
    rfl
  have h2 : ((acc.f.cells x).isMine && !(acc.f.cells x).isFlagged) = false := by
    rw [hm]
    rfl
  simp only [h1, Bool.false_eq_true, if_false, h2]

/- Monotonicity of one chord iteration: revealed cells stay revealed,
   flags are only cleared, exploded records persist, and flags never
   appear. -/

theorem chordStep_mono (acc : ChordAcc) (x q : Position) :
    ((acc.f.cells q).isRevealed = true →
      ((chordStep acc x).f.cells q).isRevealed = true) ∧
    (((chordStep acc x).f.cells q).isFlagged = true → (acc.f.cells q).isFlagged = true) := by
  by_cases h1 : ((acc.f.cells x).isFlagged || (acc.f.cells x).isRevealed) = true
  · rw [chordStep_skip h1]
    exact ⟨fun h => h, fun h => h⟩
  · have h1f : ((acc.f.cells x).isFlagged || (acc.f.cells x).isRevealed) = false :=
      Bool.eq_false_iff.mpr h1
    have hfl : (acc.f.cells x).isFlagged = false := by
      cases hx : (acc.f.cells x).isFlagged
      · rfl
      · rw [hx] at h1f
        cases h1f
    have hrev : (acc.f.cells x).isRevealed = false := by
      cases hx : (acc.f.cells x).isRevealed
      · rfl
      · rw [hx] at h1f
        rw [Bool.or_true] at h1f
        cases h1f
    by_cases hm : (acc.f.cells x).isMine = true
    · rw [chordStep_mine hfl hrev hm]
      dsimp only
      rw [cells_setCell]
      by_cases hq : q = x
      · subst hq
        rw [if_pos rfl]
        exact ⟨fun _ => rfl, fun h => h⟩
      · rw [if_neg hq]
        exact ⟨fun h => h, fun h => h⟩
    · have hmf : (acc.f.cells x).isMine = false := Bool.eq_false_iff.mpr hm
      rw [chordStep_open hfl hrev hmf]
      dsimp only
      rw [cells_openArea]
      by_cases hq : q ∈ acc.f.areaOf x
      · rw [if_pos hq]
        refine ⟨fun _ => rfl, ?_⟩
        intro h
        cases h
      · rw [if_neg hq]
        exact ⟨fun h => h, fun h => h⟩

theorem chordStep_exploded_mono (acc : ChordAcc) (x : Position) {c : CellData}
    (h : c ∈ acc.explodedCells) : c ∈ (chordStep acc x).explodedCells := by
  by_cases h1 : ((acc.f.cells x).isFlagged || (acc.f.cells x).isRevealed) = true
  · rw [chordStep_skip h1]
    exact h
  · have h1f : ((acc.f.cells x).isFlagged || (acc.f.cells x).isRevealed) = false :=
      Bool.eq_false_iff.mpr h1
    have hfl : (acc.f.cells x).isFlagged = false := by
      cases hx : (acc.f.cells x).isFlagged
      · rfl
      · rw [hx] at h1f
        cases h1f
    have hrev : (acc.f.cells x).isRevealed = false := by
      cases hx : (acc.f.cells x).isRevealed
      · rfl
      · rw [hx] at h1f
        rw [Bool.or_true] at h1f
        cases h1f
    by_cases hm : (acc.f.cells x).isMine = true
    · rw [chordStep_mine hfl hrev hm]
      exact List.mem_append_left _ h
    · have hmf : (acc.f.cells x).isMine = false := Bool.eq_false_iff.mpr hm
      rw [chordStep_open hfl hrev hmf]
      exact h

theorem chord_foldl_mono (l : List Position) (acc : ChordAcc) (q : Position) :
    ((acc.f.cells q).isRevealed = true →
      ((l.foldl chordStep acc).f.cells q).isRevealed = true) ∧
    (((l.foldl chordStep acc).f.cells q).isFlagged = true →
      (acc.f.cells q).isFlagged = true) := by
  refine foldl_inv (fun b : ChordAcc =>
      ((acc.f.cells q).isRevealed = true → (b.f.cells q).isRevealed = true) ∧
      ((b.f.cells q).isFlagged = true → (acc.f.cells q).isFlagged = true))
    chordStep l ?_ acc ⟨fun h => h, fun h => h⟩
  intro b a _ hb
  exact ⟨fun h => (chordStep_mono b a q).1 (hb.1 h),
    fun h => hb.2 ((chordStep_mono b a q).2 h)⟩

theorem chord_foldl_exploded_mono (l : List Position) (acc : ChordAcc) {c : CellData}
    (h : c ∈ acc.explodedCells) : c ∈ (l.foldl chordStep acc).explodedCells :=
  foldl_inv (fun b : ChordAcc => c ∈ b.explodedCells) chordStep l
    (fun b a _ hb => chordStep_exploded_mono b a hb) acc h

theorem chord_foldl_flag_false (l : List Position) (acc : ChordAcc) (q : Position)
    (h : (acc.f.cells q).isFlagged = false) :
    ((l.foldl chordStep acc).f.cells q).isFlagged = false := by
  cases hfy : ((l.foldl chordStep acc).f.cells q).isFlagged
  · rfl
  · have h2 := (chord_foldl_mono l acc q).2 hfy
    rw [h] at h2
    cases h2

/- The chord loop specification: under invariant I1, every sibling that
   was untouched when the chord began ends up processed - a mined one
   revealed and recorded exploded, a safe one with its whole reveal area
   revealed and unflagged. -/

theorem chord_fold_spec {f0 : Field} (hadj : AdjInvariant f0) :
    ∀ (l : List Position) (acc : ChordAcc),
      (∀ t ∈ l, f0.isInBoundary t = true) →
      acc.f.params = f0.params →
      (∀ q, (acc.f.cells q).isMine = (f0.cells q).isMine ∧
        (acc.f.cells q).adjacentMines = (f0.cells q).adjacentMines) →
      (∀ q, (f0.cells q).isRevealed = true → (acc.f.cells q).isRevealed = true) →
      (∀ q, (acc.f.cells q).isFlagged = true → (f0.cells q).isFlagged = true) →
      (∀ q, f0.isInBoundary q = true → (f0.cells q).isUntouched = true →
        (acc.f.cells q).isRevealed = true →
        ∀ y ∈ f0.areaOf q, (acc.f.cells y).isRevealed = true ∧
          (acc.f.cells y).isFlagged = false) →
      (∀ q, (f0.cells q).isMine = true → (f0.cells q).isUntouched = true →
        (acc.f.cells q).isRevealed = true →
        ∃ c, CellData.mk q c ∈ acc.explodedCells ∧ c.isMine = true ∧
          c.isRevealed = true) →
      ∀ s ∈ l, (f0.cells s).isUntouched = true →
        ((f0.cells s).isMine = true →
          ((l.foldl chordStep acc).f.cells s).isRevealed = true ∧
          ∃ c, CellData.mk s c ∈ (l.foldl chordStep acc).explodedCells ∧
            c.isMine = true ∧ c.isRevealed = true) ∧
        ((f0.cells s).isMine = false → ∀ y ∈ f0.areaOf s,
          ((l.foldl chordStep acc).f.cells y).isRevealed = true ∧
          ((l.foldl chordStep acc).f.cells y).isFlagged = false) := by
  intro l
  induction l with
  | nil =>
    intro acc _ _ _ _ _ _ _ s hs
    cases hs
  | cons x xs ih =>
    intro acc hinb hpar hma hrevm hflagm hcl hminv s hs huns
    have hxinb : f0.isInBoundary x = true := hinb x (List.mem_cons_self _ _)
    have hinb2 : ∀ t ∈ xs, f0.isInBoundary t = true :=
      fun t ht => hinb t (List.mem_cons_of_mem _ ht)
    by_cases hsk : ((acc.f.cells x).isFlagged || (acc.f.cells x).isRevealed) = true
    · rw [List.foldl_cons, chordStep_skip hsk]
      rcases List.mem_cons.mp hs with hsx | hsxs
      · subst hsx
        have hfr : (f0.cells s).isRevealed = false ∧ (f0.cells s).isFlagged = false := by
          unfold Cell.isUntouched at huns
          constructor
          · cases h1 : (f0.cells s).isRevealed
            · rfl
            · rw [h1] at huns
              cases huns
          · cases h1 : (f0.cells s).isFlagged
            · rfl
            · rw [h1] at huns
              simp at huns
        have hrevacc : (acc.f.cells s).isRevealed = true := by
          cases hN : (acc.f.cells s).isFlagged
          · rw [hN] at hsk
            simpa using hsk
          · have h2 := hflagm s hN
            rw [hfr.2] at h2
            cases h2
        have hsinb : f0.isInBoundary s = true := hxinb
        constructor
        · intro hm
          obtain ⟨c, hcmem, hcm, hcr⟩ := hminv s hm huns hrevacc
          exact ⟨(chord_foldl_mono xs acc s).1 hrevacc, c,
            chord_foldl_exploded_mono xs acc hcmem, hcm, hcr⟩
        · intro hm y hy
          have harea := hcl s hsinb huns hrevacc y hy
          exact ⟨(chord_foldl_mono xs acc y).1 harea.1,
            chord_foldl_flag_false xs acc y harea.2⟩
      · exact ih acc hinb2 hpar hma hrevm hflagm hcl hminv s hsxs huns
    · have h1f : ((acc.f.cells x).isFlagged || (acc.f.cells x).isRevealed) = false :=
        Bool.eq_false_iff.mpr hsk
      have hflx : (acc.f.cells x).isFlagged = false := by
        cases hx : (acc.f.cells x).isFlagged
        · rfl
        · rw [hx] at h1f
          cases h1f
      have hrevx : (acc.f.cells x).isRevealed = false := by
        cases hx : (acc.f.cells x).isRevealed
        · rfl
        · rw [hx] at h1f
          rw [Bool.or_true] at h1f
          cases h1f
      by_cases hmx : (acc.f.cells x).isMine = true
      · -- mined sibling: reveal it and record it exploded
        have hm0 : (f0.cells x).isMine = true := by
          rw [← (hma x).1]
          exact hmx
        have hemp0 : (f0.cells x).isEmpty = false := by
          unfold Cell.isEmpty
          rw [hm0]
          rfl
        rw [List.foldl_cons, chordStep_mine hflx hrevx hmx]
        have hcells : ∀ q, (Field.setCell acc.f x
            { acc.f.cells x with isRevealed := true }).cells q =
            if q = x then { acc.f.cells x with isRevealed := true } else acc.f.cells q :=
          fun q => cells_setCell acc.f x _ q
        have hpar2 : (Field.setCell acc.f x
            { acc.f.cells x with isRevealed := true }).params = f0.params := by
          rw [params_setCell]
          exact hpar
        have hma2 : ∀ q, ((Field.setCell acc.f x
              { acc.f.cells x with isRevealed := true }).cells q).isMine =
              (f0.cells q).isMine ∧
            ((Field.setCell acc.f x
              { acc.f.cells x with isRevealed := true }).cells q).adjacentMines =
              (f0.cells q).adjacentMines := by
          intro q
          rw [hcells q]
          by_cases hq : q = x
          · subst hq
            rw [if_pos rfl]
            constructor
            · rw [← (hma q).1]
            · rw [← (hma q).2]
          · rw [if_neg hq]
            exact hma q
        have hrevm2 : ∀ q, (f0.cells q).isRevealed = true →
            ((Field.setCell acc.f x
              { acc.f.cells x with isRevealed := true }).cells q).isRevealed = true := by
          intro q hq
          rw [hcells q]
          by_cases hqx : q = x
          · rw [if_pos hqx]
          · rw [if_neg hqx]
            exact hrevm q hq
        have hflagm2 : ∀ q, ((Field.setCell acc.f x
              { acc.f.cells x with isRevealed := true }).cells q).isFlagged = true →
            (f0.cells q).isFlagged = true := by
          intro q hq
          rw [hcells q] at hq
          by_cases hqx : q = x
          · rw [if_pos hqx] at hq
            subst hqx
            exact hflagm q hq
          · rw [if_neg hqx] at hq
            exact hflagm q hq
        have hcl2 : ∀ q, f0.isInBoundary q = true → (f0.cells q).isUntouched = true →
            ((Field.setCell acc.f x
              { acc.f.cells x with isRevealed := true }).cells q).isRevealed = true →
            ∀ y ∈ f0.areaOf q,
              ((Field.setCell acc.f x
                { acc.f.cells x with isRevealed := true }).cells y).isRevealed = true ∧
              ((Field.setCell acc.f x
                { acc.f.cells x with isRevealed := true }).cells y).isFlagged = false := by
          intro q hqb hqu hqr y hy
          by_cases hqx : q = x
          · subst hqx
            rw [areaOf_singleton hemp0] at hy
            have hyq : y = q := by simpa using hy
            subst hyq
            rw [hcells y, if_pos rfl]
            exact ⟨rfl, hflx⟩
          · rw [hcells q, if_neg hqx] at hqr
            have harea := hcl q hqb hqu hqr y hy
            rw [hcells y]
            by_cases hyx : y = x
            · rw [if_pos hyx]
              subst hyx
              exact ⟨rfl, hflx⟩
            · rw [if_neg hyx]
              exact harea
        have hminv2 : ∀ q, (f0.cells q).isMine = true → (f0.cells q).isUntouched = true →
            ((Field.setCell acc.f x
              { acc.f.cells x with isRevealed := true }).cells q).isRevealed = true →
            ∃ c, CellData.mk q c ∈ acc.explodedCells ++
                [CellData.mk x { acc.f.cells x with isRevealed := true }] ∧
              c.isMine = true ∧ c.isRevealed = true := by
          intro q hqm hqu hqr
          by_cases hqx : q = x
          · subst hqx
            refine ⟨{ acc.f.cells q with isRevealed := true }, ?_, ?_, rfl⟩
            · exact List.mem_append_right _ (List.mem_singleton.mpr rfl)
            · show (acc.f.cells q).isMine = true
              rw [(hma q).1]
              exact hqm
          · rw [hcells q, if_neg hqx] at hqr
            obtain ⟨c, hcmem, hcm, hcr⟩ := hminv q hqm hqu hqr
            exact ⟨c, List.mem_append_left _ hcmem, hcm, hcr⟩
        rcases List.mem_cons.mp hs with hsx | hsxs
        · subst hsx
          constructor
          · intro hm
            refine ⟨(chord_foldl_mono xs _ s).1 ?_, ?_⟩
            · show ((Field.setCell acc.f s
                  { acc.f.cells s with isRevealed := true }).cells s).isRevealed = true
              rw [hcells s, if_pos rfl]
            · obtain ⟨c, hcmem, hcm, hcr⟩ := hminv2 s hm0 huns
                (by rw [hcells s, if_pos rfl])
              exact ⟨c, chord_foldl_exploded_mono xs _ hcmem, hcm, hcr⟩
          · intro hm
            rw [hm] at hm0
            cases hm0
        · exact ih ⟨acc.f.setCell x { acc.f.cells x with isRevealed := true },
            acc.revealedCells, acc.unflaggedCells,
            acc.explodedCells ++ [CellData.mk x { acc.f.cells x with isRevealed := true }]⟩
            hinb2 hpar2 hma2 hrevm2 hflagm2 hcl2 hminv2 s hsxs huns
      · -- safe sibling: open its area
        have hmxf : (acc.f.cells x).isMine = false := Bool.eq_false_iff.mpr hmx
        have hm0 : (f0.cells x).isMine = false := by
          rw [← (hma x).1]
          exact hmxf
        have hareaeq : acc.f.areaOf x = f0.areaOf x := areaOf_congr hpar hma x
        rw [List.foldl_cons, chordStep_open hflx hrevx hmxf]
        have hcells : ∀ q, ((openArea acc.f x).1).cells q =
            if q ∈ acc.f.areaOf x
            then { acc.f.cells q with isFlagged := false, isRevealed := true }
            else acc.f.cells q := fun q => cells_openArea acc.f x q
        have hpar2 : ((openArea acc.f x).1).params = f0.params := by
          rw [params_openArea]
          exact hpar
        have hma2 : ∀ q, (((openArea acc.f x).1).cells q).isMine = (f0.cells q).isMine ∧
            (((openArea acc.f x).1).cells q).adjacentMines =
              (f0.cells q).adjacentMines := by
          intro q
          exact ⟨((minesAdj_openArea acc.f x q).1).trans (hma q).1,
            ((minesAdj_openArea acc.f x q).2).trans (hma q).2⟩
        have hrevm2 : ∀ q, (f0.cells q).isRevealed = true →
            (((openArea acc.f x).1).cells q).isRevealed = true := by
          intro q hq
          rw [hcells q]
          by_cases hqa : q ∈ acc.f.areaOf x
          · rw [if_pos hqa]
          · rw [if_neg hqa]
            exact hrevm q hq
        have hflagm2 : ∀ q, (((openArea acc.f x).1).cells q).isFlagged = true →
            (f0.cells q).isFlagged = true := by
          intro q hq
          rw [hcells q] at hq
          by_cases hqa : q ∈ acc.f.areaOf x
          · rw [if_pos hqa] at hq
            cases hq
          · rw [if_neg hqa] at hq
            exact hflagm q hq
        have hcl2 : ∀ q, f0.isInBoundary q = true → (f0.cells q).isUntouched = true →
            (((openArea acc.f x).1).cells q).isRevealed = true →
            ∀ y ∈ f0.areaOf q,
              (((openArea acc.f x).1).cells y).isRevealed = true ∧
              (((openArea acc.f x).1).cells y).isFlagged = false := by
          intro q hqb hqu hqr y hy
          by_cases hqa : q ∈ acc.f.areaOf x
          · have hqmem : InArea f0 x q := by
              rw [hareaeq] at hqa
              exact (mem_areaOf_iff hxinb).mp hqa
            have hymem : InArea f0 x y :=
              inArea_trans hqmem ((mem_areaOf_iff hqb).mp hy)
            have hya : y ∈ acc.f.areaOf x := by
              rw [hareaeq]
              exact (mem_areaOf_iff hxinb).mpr hymem
            rw [hcells y, if_pos hya]
            exact ⟨rfl, rfl⟩
          · rw [hcells q, if_neg hqa] at hqr
            have harea := hcl q hqb hqu hqr y hy
            rw [hcells y]
            by_cases hya : y ∈ acc.f.areaOf x
            · rw [if_pos hya]
              exact ⟨rfl, rfl⟩
            · rw [if_neg hya]
              exact harea
        have hminv2 : ∀ q, (f0.cells q).isMine = true → (f0.cells q).isUntouched = true →
            (((openArea acc.f x).1).cells q).isRevealed = true →
            ∃ c, CellData.mk q c ∈ acc.explodedCells ∧ c.isMine = true ∧
              c.isRevealed = true := by
          intro q hqm hqu hqr
          by_cases hqa : q ∈ acc.f.areaOf x
          · exfalso
            have hq0 : (f0.cells q).isMine = false := by
              apply areaOf_no_mine hadj hxinb hm0
              rw [← hareaeq]
              exact hqa
            rw [hqm] at hq0
            cases hq0
          · rw [hcells q, if_neg hqa] at hqr
            exact hminv q hqm hqu hqr
        rcases List.mem_cons.mp hs with hsx | hsxs
        · subst hsx
          constructor
          · intro hm
            rw [hm] at hm0
            cases hm0
          · intro hm y hy
            have hya : y ∈ acc.f.areaOf s := by
              rw [hareaeq]
              exact hy
            have hyprops : (((openArea acc.f s).1).cells y).isRevealed = true ∧
                (((openArea acc.f s).1).cells y).isFlagged = false := by
              rw [hcells y, if_pos hya]
              exact ⟨rfl, rfl⟩
            exact ⟨(chord_foldl_mono xs _ y).1 hyprops.1,
              chord_foldl_flag_false xs _ y hyprops.2⟩
        · exact ih ⟨(openArea acc.f x).1,
            acc.revealedCells ++ (openArea acc.f x).2.2,
            acc.unflaggedCells ++ (openArea acc.f x).2.1, acc.explodedCells⟩
            hinb2 hpar2 hma2 hrevm2 hflagm2 hcl2 hminv2 s hsxs huns

theorem untouched_parts {c : Cell} (h : c.isUntouched = true) :
    c.isRevealed = false ∧ c.isFlagged = false := by
  unfold Cell.isUntouched at h
  constructor
  · cases h1 : c.isRevealed
    · rfl
    · rw [h1] at h
      cases h
  · cases h1 : c.isFlagged
    · rfl
    · rw [h1] at h
      simp at h

theorem adjInvariant_of_mem {f : Field}
    (h : ∀ p ∈ f.allPositions, (f.cells p).adjacentMines = (minedSiblingCount f p : Int)) :
    AdjInvariant f :=
  fun p hb => h p (mem_allPositions.mpr hb)

theorem handleRevealedClick_match {f1 : Field} {tpos : Position}
    (h : (((f1.getSiblings tpos).filter fun s => (f1.cells s).isFlagged).length : Int) =
      (f1.cells tpos).adjacentMines) :
    handleRevealedClick f1 tpos =
      (((f1.getSiblings tpos).foldl chordStep ⟨f1, [], [], []⟩).f,
        { handledCells := ((f1.getSiblings tpos).filter fun s =>
            (f1.cells s).isUntouched).map fun s => CellData.mk s (f1.cells s)
          flaggedCells := []
          unflaggedCells := ((f1.getSiblings tpos).foldl chordStep
            ⟨f1, [], [], []⟩).unflaggedCells
          revealedCells := ((f1.getSiblings tpos).foldl chordStep
            ⟨f1, [], [], []⟩).revealedCells
          explodedCells := ((f1.getSiblings tpos).foldl chordStep
            ⟨f1, [], [], []⟩).explodedCells }) := by
  unfold handleRevealedClick
  dsimp only
  rw [if_pos h]

/-- C3: when revealCell targets an in-bounds, already-revealed, unflagged,
non-mine cell while the game is Playing (on a board satisfying invariant
I1), and the flagged-neighbor count equals the target's adjacentMines,
then every neighbor that was neither flagged nor revealed is processed:
a mined one ends up revealed and recorded exploded, and a non-mined one
has its whole flood-fill reveal area revealed with any flags on it
cleared; when the counts differ, no cell's state changes. -/
theorem chording_correctness :
    ∀ (e : Engine) (pos : Position) (r : ActionResult),
      AdjInvariant e.field →
      e.status = GameStatus.playing →
      e.field.isInBoundary pos = true →
      (e.field.cells pos).isRevealed = true →
      (e.field.cells pos).isFlagged = false →
      (e.field.cells pos).isMine = false →
      e.revealCell pos = some r →
      (((((e.field.getSiblings pos).filter fun s =>
            (e.field.cells s).isFlagged).length : Int) =
          (e.field.cells pos).adjacentMines →
        ∀ s ∈ e.field.getSiblings pos, (e.field.cells s).isUntouched = true →
          ((e.field.cells s).isMine = true →
            (r.applyField.cells s).isRevealed = true ∧
            ∃ c, CellData.mk s c ∈ r.actionChanges.explodedCells ∧
              c.isMine = true ∧ c.isRevealed = true) ∧
          ((e.field.cells s).isMine = false →
            ∀ y ∈ e.field.areaOf s, (r.applyField.cells y).isRevealed = true ∧
              (r.applyField.cells y).isFlagged = false)) ∧
      (¬ ((((e.field.getSiblings pos).filter fun s =>
            (e.field.cells s).isFlagged).length : Int) =
          (e.field.cells pos).adjacentMines) →
        ∀ q, r.applyField.cells q = e.field.cells q)) := by
  intro e pos r hadj hst hb hrev hfl hm hrun
  have hnidle : ¬ e.status = GameStatus.idle := by
    rw [hst]
    decide
  have hstep : revealIdleStep e pos e.field.cloneSelf =
      some (e.field.cloneSelf, e.status) := revealIdleStep_not_idle hnidle
  have hb1 : e.field.cloneSelf.isInBoundary pos = true := hb
  have hr2 := revealCell_eq hstep hb1
  rw [hrun] at hr2
  have hrr : r = mkRevealResult e pos
      (revealMain e.field.cloneSelf pos e.status (e.field.cloneSelf.cells pos)) :=
    Option.some_inj.mp hr2
  subst hrr
  have hmain : revealMain e.field.cloneSelf pos e.status (e.field.cloneSelf.cells pos) =
      handleRevealedClick e.field.cloneSelf pos := by
    unfold revealMain
    rw [hst]
    have hfl2 : (e.field.cloneSelf.cells pos).isFlagged = false := hfl
    have hm2 : (e.field.cloneSelf.cells pos).isMine = false := hm
    have hrev2 : (e.field.cloneSelf.cells pos).isRevealed = true := hrev
    simp only [hfl2, hm2, hrev2, Bool.not_false, decide_True, Bool.true_and, if_true,
      Bool.false_eq_true, if_false]
  constructor
  · intro hc s hsmem huns
    have hc1 : (((e.field.cloneSelf.getSiblings pos).filter fun s =>
        (e.field.cloneSelf.cells s).isFlagged).length : Int) =
        (e.field.cloneSelf.cells pos).adjacentMines := hc
    rw [hmain, handleRevealedClick_match hc1]
    have hspec := chord_fold_spec hadj (e.field.cloneSelf.getSiblings pos)
      ⟨e.field.cloneSelf, [], [], []⟩
      (fun t ht => getSiblings_inB ht)
      rfl
      (fun q => ⟨rfl, rfl⟩)
      (fun q h => h)
      (fun q h => h)
      (fun q _ huq hrevq => absurd hrevq (by
        show ¬ (e.field.cells q).isRevealed = true
        rw [(untouched_parts huq).1]
        exact fun hx => Bool.noConfusion hx))
      (fun q _ huq hrevq => absurd hrevq (by
        show ¬ (e.field.cells q).isRevealed = true
        rw [(untouched_parts huq).1]
        exact fun hx => Bool.noConfusion hx))
      s hsmem huns
    exact hspec
  · intro hc q
    have hc1 : ¬ ((((e.field.cloneSelf.getSiblings pos).filter fun s =>
        (e.field.cloneSelf.cells s).isFlagged).length : Int) =
        (e.field.cloneSelf.cells pos).adjacentMines) := hc
    rw [hmain, handleRevealedClick_mismatch hc1]
    rfl

theorem chording_correctness_witness :
    ((engineW.field.cells ⟨0, 2⟩).isMine = true →
      ((((engineW.revealCell ⟨0, 1⟩).getD defaultResult).applyField.cells
          ⟨0, 2⟩).isRevealed = true ∧
        ∃ c, CellData.mk ⟨0, 2⟩ c ∈
          ((engineW.revealCell ⟨0, 1⟩).getD defaultResult).actionChanges.explodedCells ∧
          c.isMine = true ∧ c.isRevealed = true)) ∧
    ((engineW.field.cells ⟨0, 2⟩).isMine = false →
      ∀ y ∈ engineW.field.areaOf ⟨0, 2⟩,
        ((((engineW.revealCell ⟨0, 1⟩).getD defaultResult).applyField.cells y).isRevealed =
          true) ∧
        (((engineW.revealCell ⟨0, 1⟩).getD defaultResult).applyField.cells y).isFlagged =
          false) :=
  (chording_correctness engineW ⟨0, 1⟩ ((engineW.revealCell ⟨0, 1⟩).getD defaultResult)
      (adjInvariant_of_mem (by decide)) rfl (by decide) (by decide) (by decide) (by decide)
      rfl).1 (by decide) ⟨0, 2⟩ (by decide) (by decide)

end Minesweeper
